import Mathlib

/-!
Shallow embedding of the watermark detection / inpainting engine of the
repository (main implementation: the AdvancedWatermarkProcessor class in
src/unnamed/part_000; the variant in src/lib/watermark-processor.ts is
embedded where the claims reference it).

Modelling conventions:
* An image buffer (JS Uint8ClampedArray of RGBA bytes) is a `List ℚ`;
  JS numbers are modelled as exact rationals (ℚ), except where the source
  computes square roots, which are modelled in ℝ via Real.sqrt.
* A store into the clamped byte array applies the ECMAScript ToUint8Clamp
  conversion: clamp to [0,255], then round half to even (`toClamped`).
  A store at a negative or out-of-range index is a no-op, as in JS.
* A read at a negative or out-of-range index is modelled as 0 by getB (in
  JS it yields undefined and poisons arithmetic with NaN).  The properties
  settled against getB are insensitive to the values of such reads (they
  concern write positions, buffer lengths, region lists, or loops that stay
  in bounds).  Where NaN propagation is itself the observable behaviour -
  the patch-similarity score - a NaN-faithful model is used instead: getBJ
  returns none (NaN) for an out-of-range read, and the J-suffixed
  arithmetic helpers propagate none exactly as JS arithmetic propagates
  NaN.
* Math.round is floor (x + 1/2) (`jsRound`); Math.floor on an exact
  division is the rational floor.
* Region coordinates are integers (ℤ): every region produced by the code
  has integral coordinates (detector window positions and sizes are
  integer literals, and merging takes mins/maxes of them), matching the
  pixel-coordinate data model.  Confidences are modelled in ℝ because the
  Sobel detector produces confidences containing square roots.
* A JS `for (v = start; v < bound; v += step)` loop over integers is
  `intFor start bound step`: the body runs on start + k*step for
  k = 0,1,... while the value is < bound.
* Array.prototype.sort is stable and sorts w.r.t. the comparator; for a
  consistent comparator this uniquely determines the output, so it is
  embedded as List.insertionSort with the corresponding total preorder
  (Mathlib's insertionSort is stable).
-/

set_option maxRecDepth 100000

namespace Nonwatermark

/-- One RGBA byte buffer. -/
abbrev Buf := List ℚ

/-- Read a byte at a natural index; out of range reads give the default 0. -/
def getN (d : Buf) (i : ℕ) : ℚ := d.getD i 0

/-- Read a byte at an integer index, with out-of-range reads mapped to 0.
Used only where the settled property does not depend on the value of an
out-of-range read; getBJ below is the NaN-faithful variant. -/
def getB (d : Buf) (i : ℤ) : ℚ := if 0 ≤ i then getN d i.toNat else 0

/-- Round half to even, as in the ECMAScript ToUint8Clamp conversion. -/
def roundHalfEven (q : ℚ) : ℤ :=
  let f := q.floor
  let r := q - f
  if r < 1/2 then f
  else if 1/2 < r then f + 1
  else if f % 2 = 0 then f else f + 1

/-- ECMAScript ToUint8Clamp: clamp to [0,255] then round half to even. -/
def toClamped (q : ℚ) : ℚ := ((roundHalfEven (min 255 (max 0 q)) : ℤ) : ℚ)

/-- Store a byte: Uint8ClampedArray conversion, out-of-range stores are no-ops. -/
def setB (d : Buf) (i : ℤ) (v : ℚ) : Buf :=
  if 0 ≤ i then d.set i.toNat (toClamped v) else d

/-- Math.round: floor (x + 1/2). -/
def jsRound (q : ℚ) : ℤ := (q + 1/2).floor

/-- Math.round on a real number (used after real-valued patch blending). -/
noncomputable def jsRoundR (x : ℝ) : ℤ := ⌊x + 1/2⌋

/-- Number of iterations of a JS loop for (v = start; v < bound; v += step). -/
def loopCount (start bound : ℤ) (step : ℕ) : ℕ :=
  ((bound - start + step - 1) / step).toNat

/-- Fold of a JS integer for-loop body over its iteration values. -/
def intFor {σ : Type*} (start bound : ℤ) (step : ℕ) (f : ℤ → σ → σ) (init : σ) : σ :=
  (List.range (loopCount start bound step)).foldl
    (fun s (k : ℕ) => f (start + (k : ℤ) * (step : ℤ)) s) init

/-- Byte index of the red channel of pixel (x, y): source idiom (y*width+x)*4. -/
def pixIdx (w : ℕ) (x y : ℤ) : ℤ := (y * w + x) * 4

/-- Source idiom (data[idx] + data[idx+1] + data[idx+2]) / 3: gray value at a base index. -/
def grayB (d : Buf) (idx : ℤ) : ℚ := (getB d idx + getB d (idx + 1) + getB d (idx + 2)) / 3

/-- The closed set of region type tags. -/
inductive RegionType
  | text
  | logo
  | pattern
  | transparent
deriving DecidableEq

/-- WatermarkRegion of the source: rectangle, confidence, type tag. -/
structure Region where
  x : ℤ
  y : ℤ
  width : ℤ
  height : ℤ
  confidence : ℝ
  type : RegionType

/-- Plain rectangle (the untyped expandedRegion object built by removeTextWatermark). -/
structure Rect where
  x : ℤ
  y : ℤ
  width : ℤ
  height : ℤ

/-- An r/g/b triple as collected by the neighbour-sampling helpers. -/
structure RGBc where
  r : ℚ
  g : ℚ
  b : ℚ

/-! ### Region detectors (src/unnamed/part_000, lines 150-523) -/

/-- extractBlock: gray values of a size×size block, row-major. -/
def extractBlock (d : Buf) (w : ℕ) (x y : ℤ) (size : ℕ) : List ℚ :=
  intFor 0 size 1 (fun dy acc =>
    intFor 0 size 1 (fun dx acc2 =>
      acc2 ++ [grayB d (pixIdx w (x + dx) (y + dy))]) acc) []

/-- analyzeBlockFrequency: variance band test plus smooth-gradient score. -/
def analyzeBlockFrequency (block : List ℚ) : ℚ :=
  let mean := block.foldl (· + ·) (0 : ℚ) / (block.length : ℚ)
  let variance :=
    block.foldl (fun sum val => sum + (val - mean) * (val - mean)) (0 : ℚ) / (block.length : ℚ)
  if 100 < variance ∧ variance < 2000 then
    let gradientScore := intFor 1 block.length 1 (fun i acc =>
      let diff := |block.getD i.toNat 0 - block.getD (i.toNat - 1) 0|
      if 5 < diff ∧ diff < 50 then acc + 1 else acc) (0 : ℚ)
    min (gradientScore / (block.length : ℚ)) 1
  else 0

/-- detectByFrequencyAnalysis: 64px windows at 50% stride, type pattern. -/
def detectByFrequencyAnalysis (d : Buf) (w h : ℕ) : List Region :=
  intFor 0 ((h : ℤ) - 64) 32 (fun y acc =>
    intFor 0 ((w : ℤ) - 64) 32 (fun x acc2 =>
      let frequencyScore := analyzeBlockFrequency (extractBlock d w x y 64)
      if (0.4 : ℚ) < frequencyScore then
        acc2 ++ [⟨x, y, 64, 64, (frequencyScore : ℝ), .pattern⟩]
      else acc2) acc) []

/-- analyzeTextContrast: edge-density in a window (the source also computes an
unused center gray value, omitted here). -/
def analyzeTextContrast (d : Buf) (w : ℕ) (x y : ℤ) (size : ℕ) : ℚ :=
  let counts := intFor 1 ((size : ℤ) - 1) 1 (fun dy acc =>
    intFor 1 ((size : ℤ) - 1) 1 (fun dx (acc2 : ℚ × ℚ) =>
      let left := grayB d (pixIdx w (x + dx - 1) (y + dy))
      let right := grayB d (pixIdx w (x + dx + 1) (y + dy))
      let up := grayB d (pixIdx w (x + dx) (y + dy - 1))
      let down := grayB d (pixIdx w (x + dx) (y + dy + 1))
      let gradH := |right - left|
      let gradV := |down - up|
      ((if 20 < gradH ∨ 20 < gradV then acc2.1 + 1 else acc2.1), acc2.2 + 1)) acc)
    ((0 : ℚ), (0 : ℚ))
  let edgeDensity := counts.1 / counts.2
  if (0.1 : ℚ) < edgeDensity ∧ edgeDensity < 0.4 then edgeDensity * 2 else 0

/-- detectTextByContrast: 32px windows at stride 16, type text. -/
def detectTextByContrast (d : Buf) (w h : ℕ) : List Region :=
  intFor 0 ((h : ℤ) - 32) 16 (fun y acc =>
    intFor 0 ((w : ℤ) - 32) 16 (fun x acc2 =>
      let contrastScore := analyzeTextContrast d w x y 32
      if (0.5 : ℚ) < contrastScore then
        acc2 ++ [⟨x, y, 32, 32, (contrastScore : ℝ), .text⟩]
      else acc2) acc) []

/-- getPatternHash: brightness samples on a coarse grid, bucketed to multiples
of 32.  The JS code joins the samples into a comma-separated string; since
two sample lists are equal iff the joined strings are, the hash is modelled
as the sample list itself. -/
def getPatternHash (d : Buf) (w : ℕ) (x y : ℤ) (size : ℕ) : List ℚ :=
  intFor 0 size 4 (fun dy acc =>
    intFor 0 size 4 (fun dx acc2 =>
      acc2 ++ [((jsRound (grayB d (pixIdx w (x + dx) (y + dy)) / 32) : ℤ) * 32 : ℚ)]) acc) []

/-- Insertion-ordered map update, modelling JS Map.set / Map.get pushes:
appends the location to the entry of the key, or appends a new entry. -/
def mapInsert (m : List (List ℚ × List (ℤ × ℤ))) (k : List ℚ) (loc : ℤ × ℤ) :
    List (List ℚ × List (ℤ × ℤ)) :=
  match m with
  | [] => [(k, [loc])]
  | (k', locs) :: rest =>
    if k' = k then (k', locs ++ [loc]) :: rest else (k', locs) :: mapInsert rest k loc

/-- detectRepeatingPatterns: group 48px windows (stride 24) by hash; every
window of a hash shared by at least 3 windows becomes a pattern candidate.
JS Map.forEach iterates in key insertion order, as the fold does here. -/
def detectRepeatingPatterns (d : Buf) (w h : ℕ) : List Region :=
  let patterns := intFor 0 ((h : ℤ) - 48) 24 (fun y m =>
    intFor 0 ((w : ℤ) - 48) 24 (fun x m2 =>
      mapInsert m2 (getPatternHash d w x y 48) (x, y)) m) []
  patterns.foldl (fun acc entry =>
    if 3 ≤ entry.2.length then
      acc ++ entry.2.map (fun loc =>
        (⟨loc.1, loc.2, 48, 48, (min ((entry.2.length : ℚ) / 10) 1 : ℚ), .pattern⟩ : Region))
    else acc) []

open Classical in
/-- analyzeTransparency: flat (low std) and extreme-brightness window test.
The source also keeps a totalPixels counter that it never uses; omitted. -/
noncomputable def analyzeTransparency (d : Buf) (w : ℕ) (x y : ℤ) (size : ℕ) : ℚ :=
  let samples := intFor 0 size 1 (fun dy acc =>
    intFor 0 size 1 (fun dx acc2 =>
      acc2 ++ [grayB d (pixIdx w (x + dx) (y + dy))]) acc) ([] : List ℚ)
  let mean := samples.foldl (· + ·) (0 : ℚ) / (samples.length : ℚ)
  let std : ℝ := Real.sqrt
    ((samples.foldl (fun sum val => sum + (val - mean) * (val - mean)) (0 : ℚ) /
      (samples.length : ℚ) : ℚ) : ℝ)
  if std < 30 ∧ (180 < mean ∨ mean < 80) then 0.8 else 0

open Classical in
/-- detectTransparentOverlays: 40px windows at stride 20, type transparent. -/
noncomputable def detectTransparentOverlays (d : Buf) (w h : ℕ) : List Region :=
  intFor 0 ((h : ℤ) - 40) 20 (fun y acc =>
    intFor 0 ((w : ℤ) - 40) 20 (fun x acc2 =>
      let transparencyScore := analyzeTransparency d w x y 40
      if (0.4 : ℚ) < transparencyScore then
        acc2 ++ [⟨x, y, 40, 40, (transparencyScore : ℝ), .transparent⟩]
      else acc2) acc) []

/-- Read from the Float32Array of Sobel magnitudes (modelled exactly in ℝ). -/
def getR (edges : List ℝ) (i : ℤ) : ℝ := if 0 ≤ i then edges.getD i.toNat 0 else 0

/-- applySobelFilter: gradient magnitude per interior pixel. -/
noncomputable def applySobelFilter (d : Buf) (w h : ℕ) : List ℝ :=
  let sobelX : List ℚ := [-1, 0, 1, -2, 0, 2, -1, 0, 1]
  let sobelY : List ℚ := [-1, -2, -1, 0, 0, 0, 1, 2, 1]
  intFor 1 ((h : ℤ) - 1) 1 (fun y acc =>
    intFor 1 ((w : ℤ) - 1) 1 (fun x acc2 =>
      let g := intFor (-1) 2 1 (fun dy gacc =>
        intFor (-1) 2 1 (fun dx (gacc2 : ℚ × ℚ) =>
          let gray := grayB d (pixIdx w (x + dx) (y + dy))
          let kernelIdx := ((dy + 1) * 3 + (dx + 1)).toNat
          (gacc2.1 + gray * sobelX.getD kernelIdx 0,
           gacc2.2 + gray * sobelY.getD kernelIdx 0)) gacc) ((0 : ℚ), (0 : ℚ))
      acc2.set (y * w + x).toNat (Real.sqrt ((g.1 * g.1 + g.2 * g.2 : ℚ) : ℝ))) acc)
    (List.replicate (w * h) (0 : ℝ))

/-- analyzeEdges: average Sobel magnitude over a block, normalized by 100. -/
noncomputable def analyzeEdges (edges : List ℝ) (w : ℕ) (x y : ℤ) (size : ℕ) : ℝ :=
  let s := intFor 0 size 1 (fun dy acc =>
    intFor 0 size 1 (fun dx (acc2 : ℝ × ℝ) =>
      (acc2.1 + getR edges ((y + dy) * w + (x + dx)), acc2.2 + 1)) acc) ((0 : ℝ), (0 : ℝ))
  min (s.1 / s.2 / 100) 1

open Classical in
/-- detectByEdgeAnalysis: 50px windows at stride 25 over the Sobel map, type logo. -/
noncomputable def detectByEdgeAnalysis (d : Buf) (w h : ℕ) : List Region :=
  let edges := applySobelFilter d w h
  intFor 0 ((h : ℤ) - 50) 25 (fun y acc =>
    intFor 0 ((w : ℤ) - 50) 25 (fun x acc2 =>
      let edgeScore := analyzeEdges edges w x y 50
      if (0.3 : ℝ) < edgeScore then
        acc2 ++ [⟨x, y, 50, 50, edgeScore, .logo⟩]
      else acc2) acc) []

/-! ### Region consolidation (src/unnamed/part_000, lines 525-600) -/

/-- regionsOverlap: separating-axis test on axis-aligned rectangles. -/
def regionsOverlap (a b : Region) : Prop :=
  ¬(a.x + a.width < b.x ∨ b.x + b.width < a.x ∨
    a.y + a.height < b.y ∨ b.y + b.height < a.y)

instance : DecidablePred fun p : Region × Region => regionsOverlap p.1 p.2 :=
  fun _ => by unfold regionsOverlap; infer_instance

instance (a b : Region) : Decidable (regionsOverlap a b) := by
  unfold regionsOverlap; infer_instance

/-- Math.min over a spread of a list (the source only applies it to nonempty
cluster lists; the empty case, Infinity in JS, is irrelevant and mapped to 0). -/
def listMin (l : List ℤ) : ℤ :=
  match l with
  | [] => 0
  | x :: xs => xs.foldl min x

/-- Math.max over a spread of a list; empty case as in listMin. -/
def listMax (l : List ℤ) : ℤ :=
  match l with
  | [] => 0
  | x :: xs => xs.foldl max x

/-- Comparison by multiplicity under a fixed count function: the total
preorder induced by the JS comparator
(a, b) => types.filter(v => v === a).length - types.filter(v => v === b).length
(counts depend only on the multiset of the array, so they are fixed during
the sort). -/
def cntLe {α : Type*} (cnt : α → ℕ) (a b : α) : Prop := cnt a ≤ cnt b

instance {α : Type*} (cnt : α → ℕ) : DecidableRel (cntLe cnt) :=
  fun _ _ => Nat.decLe _ _

instance {α : Type*} (cnt : α → ℕ) : IsTotal α (cntLe cnt) :=
  ⟨fun _ _ => Nat.le_total _ _⟩

instance {α : Type*} (cnt : α → ℕ) : IsTrans α (cntLe cnt) :=
  ⟨fun _ _ _ hab hbc => Nat.le_trans hab hbc⟩

/-- The types.sort(byCount).pop() || 'pattern' computation of mergeRegions:
stable ascending sort by multiplicity, then take the last element. -/
def mostCommonTypeOf (types : List RegionType) : RegionType :=
  ((types.insertionSort (cntLe fun t => types.count t)).getLast?).getD .pattern

/-- mergeRegions: bounding-box union, mean confidence, most common type. -/
noncomputable def mergeRegions (regions : List Region) : Region :=
  let minX := listMin (regions.map Region.x)
  let minY := listMin (regions.map Region.y)
  let maxX := listMax (regions.map fun r => r.x + r.width)
  let maxY := listMax (regions.map fun r => r.y + r.height)
  let avgConfidence :=
    (regions.map Region.confidence).foldl (· + ·) (0 : ℝ) / (regions.length : ℝ)
  { x := minX, y := minY, width := maxX - minX, height := maxY - minY,
    confidence := avgConfidence, type := mostCommonTypeOf (regions.map Region.type) }

open Classical in
/-- Confidence filter of consolidateRegions: keep confidence > 0.3. -/
noncomputable def filteredOf (regions : List Region) : List Region :=
  regions.filter fun r => decide ((0.3 : ℝ) < r.confidence)

/-- Descending-confidence preorder of the sort comparator (a, b) => b.confidence - a.confidence. -/
def confGe (a b : Region) : Prop := b.confidence ≤ a.confidence

noncomputable instance : DecidableRel confGe := fun _ _ => Classical.propDecidable _

instance : IsTotal Region confGe := ⟨fun a b => le_total b.confidence a.confidence⟩

instance : IsTrans Region confGe := ⟨fun _ _ _ hab hbc => le_trans hbc hab⟩

/-- The filtered candidate list sorted by descending confidence (stable). -/
noncomputable def sortedOf (regions : List Region) : List Region :=
  (filteredOf regions).insertionSort confGe

/-- The greedy clustering loop of consolidateRegions.  The source iterates
indices with a used-set: the first unused index seeds a cluster and absorbs
every later unused index overlapping the seed.  Scanning in ascending order
with a used-set is the same as working on the list of still-unused regions:
take the head as seed, split the tail into overlapping (absorbed) and
non-overlapping (remaining), recurse on the remaining list. -/
noncomputable def greedyMerge : List Region → List Region
  | [] => []
  | r :: rest =>
    let grp := rest.filter fun s => decide (regionsOverlap r s)
    let remaining := rest.filter fun s => !decide (regionsOverlap r s)
    let current := if grp.isEmpty then r else mergeRegions (r :: grp)
    current :: greedyMerge remaining
termination_by l => l.length
decreasing_by
  simp only [List.length_cons]
  exact Nat.lt_succ_of_le (List.length_filter_le _ rest)

/-- The clusters built by the greedy loop (seed first, absorbed members in
scan order), used to state the partition invariant. -/
noncomputable def greedyGroups : List Region → List (List Region)
  | [] => []
  | r :: rest =>
    (r :: rest.filter fun s => decide (regionsOverlap r s)) ::
      greedyGroups (rest.filter fun s => !decide (regionsOverlap r s))
termination_by l => l.length
decreasing_by
  simp only [List.length_cons]
  exact Nat.lt_succ_of_le (List.length_filter_le _ rest)

/-- The merged region a cluster contributes (the source merges only groups
with more than one member and keeps a singleton seed as is). -/
noncomputable def mergeOfGroup (g : List Region) : Region :=
  match g with
  | [] => ⟨0, 0, 0, 0, 0, .pattern⟩
  | r :: grp => if grp.isEmpty then r else mergeRegions (r :: grp)

/-- consolidateRegions: early return on empty input, confidence filter,
stable descending sort, greedy merge, cap at 10. -/
noncomputable def consolidateRegions (regions : List Region) : List Region :=
  if regions.isEmpty then [] else (greedyMerge (sortedOf regions)).take 10

/-- detectWatermarks: concatenation of the five detectors, consolidated. -/
noncomputable def detectWatermarks (d : Buf) (w h : ℕ) : List Region :=
  consolidateRegions
    (detectByFrequencyAnalysis d w h ++ detectTextByContrast d w h ++
     detectRepeatingPatterns d w h ++ detectTransparentOverlays d w h ++
     detectByEdgeAnalysis d w h)

/-! ### Buffer-threaded detection (for the purity claim): each detector
receives the byte array and returns it together with its candidates; the
bodies above contain no store into the array, so each wrapper returns the
buffer it was given. -/

noncomputable def detectByFrequencyAnalysisSt (d : Buf) (w h : ℕ) : Buf × List Region :=
  (d, detectByFrequencyAnalysis d w h)

noncomputable def detectTextByContrastSt (d : Buf) (w h : ℕ) : Buf × List Region :=
  (d, detectTextByContrast d w h)

noncomputable def detectRepeatingPatternsSt (d : Buf) (w h : ℕ) : Buf × List Region :=
  (d, detectRepeatingPatterns d w h)

noncomputable def detectTransparentOverlaysSt (d : Buf) (w h : ℕ) : Buf × List Region :=
  (d, detectTransparentOverlays d w h)

noncomputable def detectByEdgeAnalysisSt (d : Buf) (w h : ℕ) : Buf × List Region :=
  (d, detectByEdgeAnalysis d w h)

/-- detectWatermarks with the buffer threaded through the five detector
calls in source order. -/
noncomputable def detectWatermarksSt (d : Buf) (w h : ℕ) : Buf × List Region :=
  let s1 := detectByFrequencyAnalysisSt d w h
  let s2 := detectTextByContrastSt s1.1 w h
  let s3 := detectRepeatingPatternsSt s2.1 w h
  let s4 := detectTransparentOverlaysSt s3.1 w h
  let s5 := detectByEdgeAnalysisSt s4.1 w h
  (s5.1, consolidateRegions (s1.2 ++ s2.2 ++ s3.2 ++ s4.2 ++ s5.2))


/-! ### Inpainting strategies (src/unnamed/part_000, lines 602-1190) -/

/-- getNeighborPixels: all in-bounds pixels in a square radius, center excluded. -/
def getNeighborPixels (d : Buf) (w h : ℕ) (x y : ℤ) (radius : ℕ) : List RGBc :=
  intFor (-(radius : ℤ)) ((radius : ℤ) + 1) 1 (fun dy acc =>
    intFor (-(radius : ℤ)) ((radius : ℤ) + 1) 1 (fun dx acc2 =>
      if dx = 0 ∧ dy = 0 then acc2
      else
        let nx := x + dx
        let ny := y + dy
        if 0 ≤ nx ∧ nx < w ∧ 0 ≤ ny ∧ ny < h then
          let idx := pixIdx w nx ny
          acc2 ++ [⟨getB d idx, getB d (idx + 1), getB d (idx + 2)⟩]
        else acc2) acc) []

/-- getValidNeighbors: as getNeighborPixels but excluding pixels inside the region. -/
def getValidNeighbors (d : Buf) (w h : ℕ) (x y : ℤ) (radius : ℕ)
    (excludeRegion : Region) : List RGBc :=
  intFor (-(radius : ℤ)) ((radius : ℤ) + 1) 1 (fun dy acc =>
    intFor (-(radius : ℤ)) ((radius : ℤ) + 1) 1 (fun dx acc2 =>
      if dx = 0 ∧ dy = 0 then acc2
      else
        let nx := x + dx
        let ny := y + dy
        if 0 ≤ nx ∧ nx < w ∧ 0 ≤ ny ∧ ny < h then
          if nx < excludeRegion.x ∨ excludeRegion.x + excludeRegion.width ≤ nx ∨
             ny < excludeRegion.y ∨ excludeRegion.y + excludeRegion.height ≤ ny then
            let idx := pixIdx w nx ny
            acc2 ++ [⟨getB d idx, getB d (idx + 1), getB d (idx + 2)⟩]
          else acc2
        else acc2) acc) []

/-- averageColors: rounded channel-wise mean of a colour list. -/
def averageColors (colors : List RGBc) : RGBc :=
  let sum := colors.foldl
    (fun acc color => (⟨acc.r + color.r, acc.g + color.g, acc.b + color.b⟩ : RGBc))
    ⟨0, 0, 0⟩
  ⟨((jsRound (sum.r / colors.length) : ℤ) : ℚ),
   ((jsRound (sum.g / colors.length) : ℤ) : ℚ),
   ((jsRound (sum.b / colors.length) : ℤ) : ℚ)⟩

/-- estimateOriginalColor: invert the assumed alpha-0.3 blend per channel
(the source also computes the neighbour average but never uses it). -/
def estimateOriginalColor (d : Buf) (idx : ℤ) (neighbors : List RGBc) : RGBc :=
  let current : RGBc := ⟨getB d idx, getB d (idx + 1), getB d (idx + 2)⟩
  let _avg := averageColors neighbors
  ⟨min 255 (max 0 ((current.r - 0.3 * 255) / (1 - 0.3))),
   min 255 (max 0 ((current.g - 0.3 * 255) / (1 - 0.3))),
   min 255 (max 0 ((current.b - 0.3 * 255) / (1 - 0.3)))⟩

/-- bilinearInterpolate: average of the in-bounds cardinal control points. -/
def bilinearInterpolate (d : Buf) (w h : ℕ) (x y : ℤ) (radius : ℤ) : Option RGBc :=
  let directions : List (ℤ × ℤ) := [(-radius, 0), (radius, 0), (0, -radius), (0, radius)]
  let points := directions.foldl (fun acc dir =>
    let px := x + dir.1
    let py := y + dir.2
    if 0 ≤ px ∧ px < w ∧ 0 ≤ py ∧ py < h then
      let idx := pixIdx w px py
      acc ++ [(⟨getB d idx, getB d (idx + 1), getB d (idx + 2)⟩ : RGBc)]
    else acc) []
  if points.length < 2 then none else some (averageColors points)

/-- findBestPatch: exhaustive search in a bounded window for the source pixel
whose patch (restricted to target pixels outside the repaired region) has the
least mean squared RGB distance. -/
def findBestPatch (d : Buf) (w h : ℕ) (targetX targetY : ℤ) (patchSize : ℤ)
    (searchRadius : ℤ) (excludeRegion : Rect) : Option (ℤ × ℤ) :=
  let halfPatch := ((patchSize : ℚ) / 2).floor
  let best := intFor (max halfPatch (targetY - searchRadius))
      (min ((h : ℤ) - halfPatch) (targetY + searchRadius)) 1 (fun sy best =>
    intFor (max halfPatch (targetX - searchRadius))
        (min ((w : ℤ) - halfPatch) (targetX + searchRadius)) 1 (fun sx best2 =>
      if excludeRegion.x ≤ sx ∧ sx < excludeRegion.x + excludeRegion.width ∧
         excludeRegion.y ≤ sy ∧ sy < excludeRegion.y + excludeRegion.height then
        best2
      else
        let sc := intFor (-halfPatch) (halfPatch + 1) 1 (fun dy sacc =>
          intFor (-halfPatch) (halfPatch + 1) 1 (fun dx (sacc2 : ℚ × ℕ) =>
            let tx := targetX + dx
            let ty := targetY + dy
            let sx2 := sx + dx
            let sy2 := sy + dy
            if tx < excludeRegion.x ∨ excludeRegion.x + excludeRegion.width ≤ tx ∨
               ty < excludeRegion.y ∨ excludeRegion.y + excludeRegion.height ≤ ty then
              let tidx := pixIdx w tx ty
              let sidx := pixIdx w sx2 sy2
              let dr := getB d tidx - getB d sidx
              let dg := getB d (tidx + 1) - getB d (sidx + 1)
              let db := getB d (tidx + 2) - getB d (sidx + 2)
              (sacc2.1 + dr * dr + dg * dg + db * db, sacc2.2 + 1)
            else sacc2) sacc) ((0 : ℚ), (0 : ℕ))
        if 0 < sc.2 then
          let score := sc.1 / sc.2
          match best2 with
          | none => some ((sx, sy), score)
          | some (_, bestScore) =>
            if score < bestScore then some ((sx, sy), score) else best2
        else best2) best) (none : Option ((ℤ × ℤ) × ℚ))
  best.map (·.1)

/-- contentAwareInpaint: per-pixel best-patch copy (patchSize 7, searchRadius 30).
Each channel of the best patch is read from the current buffer right before
its own write, as in the source. -/
def contentAwareInpaint (d : Buf) (w h : ℕ) (region : Rect) : Buf :=
  intFor region.y (min (region.y + region.height) h) 1 (fun y acc =>
    intFor region.x (min (region.x + region.width) w) 1 (fun x acc2 =>
      match findBestPatch acc2 w h x y 7 30 region with
      | some bestPatch =>
        let idx := pixIdx w x y
        let patchIdx := pixIdx w bestPatch.1 bestPatch.2
        let a1 := setB acc2 idx (getB acc2 patchIdx)
        let a2 := setB a1 (idx + 1) (getB a1 (patchIdx + 1))
        setB a2 (idx + 2) (getB a2 (patchIdx + 2))
      | none => acc2) acc) d

/-- fourierInpaint: cardinal-point interpolation at radius 5 per region pixel. -/
def fourierInpaint (d : Buf) (w h : ℕ) (region : Region) : Buf :=
  intFor region.y (min (region.y + region.height) h) 1 (fun y acc =>
    intFor region.x (min (region.x + region.width) w) 1 (fun x acc2 =>
      match bilinearInterpolate acc2 w h x y 5 with
      | some interpolated =>
        let idx := pixIdx w x y
        let a1 := setB acc2 idx interpolated.r
        let a2 := setB a1 (idx + 1) interpolated.g
        setB a2 (idx + 2) interpolated.b
      | none => acc2) acc) d

/-- The sum/count accumulation loop of computePatchSimilarity: sum of the
per-pixel Euclidean RGB distances of the two patches, and the pixel count. -/
noncomputable def patchDiffAcc (d : Buf) (w : ℕ) (x1 y1 x2 y2 halfPatch : ℤ) : ℝ × ℕ :=
  intFor (-halfPatch) (halfPatch + 1) 1 (fun dy acc =>
    intFor (-halfPatch) (halfPatch + 1) 1 (fun dx (acc2 : ℝ × ℕ) =>
      let idx1 := pixIdx w (x1 + dx) (y1 + dy)
      let idx2 := pixIdx w (x2 + dx) (y2 + dy)
      let dr := getB d idx1 - getB d idx2
      let dg := getB d (idx1 + 1) - getB d (idx2 + 1)
      let db := getB d (idx1 + 2) - getB d (idx2 + 2)
      (acc2.1 + Real.sqrt ((dr * dr + dg * dg + db * db : ℚ) : ℝ), acc2.2 + 1)) acc)
    ((0 : ℝ), (0 : ℕ))

/-- computePatchSimilarity: 1 minus the normalized mean Euclidean RGB distance
between the two patches, floored at 0 (441 is the source constant for the
maximal distance sqrt(255^2 * 3)). -/
noncomputable def computePatchSimilarity (d : Buf) (w : ℕ) (x1 y1 x2 y2 : ℤ)
    (patchSize : ℤ) : ℝ :=
  let halfPatch := ((patchSize : ℚ) / 2).floor
  let sc := patchDiffAcc d w x1 y1 x2 y2 halfPatch
  let avgDiff := sc.1 / (sc.2 : ℝ)
  max 0 (1 - avgDiff / 441)

/-- A patch candidate of findSimilarPatches: source location plus weight. -/
structure PatchW where
  x : ℤ
  y : ℤ
  weight : ℝ

/-- Descending-weight preorder of the comparator (a, b) => b.weight - a.weight. -/
def weightGe (a b : PatchW) : Prop := b.weight ≤ a.weight

noncomputable instance : DecidableRel weightGe := fun _ _ => Classical.propDecidable _

instance : IsTotal PatchW weightGe := ⟨fun a b => le_total b.weight a.weight⟩

instance : IsTrans PatchW weightGe := ⟨fun _ _ _ hab hbc => le_trans hbc hab⟩

open Classical in
/-- findSimilarPatches: all patches with similarity above 0.7 in a radius-50
window outside the region, sorted by descending weight, top 5. -/
noncomputable def findSimilarPatches (d : Buf) (w h : ℕ) (x y : ℤ) (patchSize : ℤ)
    (excludeRegion : Region) : List PatchW :=
  let halfPatch := ((patchSize : ℚ) / 2).floor
  let patches := intFor (max halfPatch (y - 50)) (min ((h : ℤ) - halfPatch) (y + 50)) 1
    (fun sy acc =>
      intFor (max halfPatch (x - 50)) (min ((w : ℤ) - halfPatch) (x + 50)) 1 (fun sx acc2 =>
        if excludeRegion.x ≤ sx ∧ sx < excludeRegion.x + excludeRegion.width ∧
           excludeRegion.y ≤ sy ∧ sy < excludeRegion.y + excludeRegion.height then
          acc2
        else
          let similarity := computePatchSimilarity d w x y sx sy patchSize
          if (0.7 : ℝ) < similarity then acc2 ++ [⟨sx, sy, similarity⟩] else acc2) acc) []
  (patches.insertionSort weightGe).take 5

/-- Accumulator of the weighted blend of blendPatches. -/
structure BlendAcc where
  r : ℝ
  g : ℝ
  b : ℝ
  totalWeight : ℝ

/-- blendPatches: weighted average of the patch center colours. -/
noncomputable def blendPatches (d : Buf) (w : ℕ) (patches : List PatchW) : RGBc :=
  let s := patches.foldl (fun (acc : BlendAcc) patch =>
    let idx := pixIdx w patch.x patch.y
    ⟨acc.r + (getB d idx : ℝ) * patch.weight,
     acc.g + (getB d (idx + 1) : ℝ) * patch.weight,
     acc.b + (getB d (idx + 2) : ℝ) * patch.weight,
     acc.totalWeight + patch.weight⟩) ⟨0, 0, 0, 0⟩
  ⟨((jsRoundR (s.r / s.totalWeight) : ℤ) : ℚ),
   ((jsRoundR (s.g / s.totalWeight) : ℤ) : ℚ),
   ((jsRoundR (s.b / s.totalWeight) : ℤ) : ℚ)⟩

/-- patchBasedInpaint: 3 refinement iterations over every 2nd region pixel,
writing the blend of the top similar patches (patchSize 9). -/
noncomputable def patchBasedInpaint (d : Buf) (w h : ℕ) (region : Region) : Buf :=
  intFor 0 3 1 (fun _iter acc =>
    intFor region.y (min (region.y + region.height) h) 2 (fun y acc2 =>
      intFor region.x (min (region.x + region.width) w) 2 (fun x acc3 =>
        let patches := findSimilarPatches acc3 w h x y 9 region
        if 0 < patches.length then
          let blended := blendPatches acc3 w patches
          let idx := pixIdx w x y
          let a1 := setB acc3 idx blended.r
          let a2 := setB a1 (idx + 1) blended.g
          setB a2 (idx + 2) blended.b
        else acc3) acc2) acc) d

/-- inpaintRegion: 5 iterations of neighbourhood averaging with a 0.7 blend. -/
def inpaintRegion (d : Buf) (w h : ℕ) (region : Region) : Buf :=
  intFor 0 5 1 (fun _iter acc =>
    intFor region.y (min (region.y + region.height) h) 1 (fun y acc2 =>
      intFor region.x (min (region.x + region.width) w) 1 (fun x acc3 =>
        let neighbors := getValidNeighbors acc3 w h x y 2 region
        if 0 < neighbors.length then
          let avg := averageColors neighbors
          let idx := pixIdx w x y
          let a1 := setB acc3 idx
            ((jsRound (getB acc3 idx * (1 - 0.7) + avg.r * 0.7) : ℤ) : ℚ)
          let a2 := setB a1 (idx + 1)
            ((jsRound (getB a1 (idx + 1) * (1 - 0.7) + avg.g * 0.7) : ℤ) : ℚ)
          setB a2 (idx + 2)
            ((jsRound (getB a2 (idx + 2) * (1 - 0.7) + avg.b * 0.7) : ℤ) : ℚ)
        else acc3) acc2) acc) d

/-- removeTextWatermark: content-aware inpainting of the region expanded by 5px
(clamped at the origin, width capped by the buffer as in the source). -/
def removeTextWatermark (d : Buf) (w h : ℕ) (region : Region) : Buf :=
  let expandedRegion : Rect :=
    ⟨max 0 (region.x - 5), max 0 (region.y - 5),
     min ((w : ℤ) - region.x) (region.width + 10),
     min ((h : ℤ) - region.y) (region.height + 10)⟩
  contentAwareInpaint d w h expandedRegion

/-- removeTransparentWatermark: per-pixel deblending from the neighbourhood. -/
def removeTransparentWatermark (d : Buf) (w h : ℕ) (region : Region) : Buf :=
  intFor region.y (min (region.y + region.height) h) 1 (fun y acc =>
    intFor region.x (min (region.x + region.width) w) 1 (fun x acc2 =>
      let idx := pixIdx w x y
      let neighbors := getNeighborPixels acc2 w h x y 3
      if 0 < neighbors.length then
        let estimated := estimateOriginalColor acc2 idx neighbors
        let a1 := setB acc2 idx estimated.r
        let a2 := setB a1 (idx + 1) estimated.g
        setB a2 (idx + 2) estimated.b
      else acc2) acc) d

/-- removePatternWatermark dispatches to fourierInpaint. -/
def removePatternWatermark (d : Buf) (w h : ℕ) (region : Region) : Buf :=
  fourierInpaint d w h region

/-- removeLogoWatermark dispatches to patchBasedInpaint. -/
noncomputable def removeLogoWatermark (d : Buf) (w h : ℕ) (region : Region) : Buf :=
  patchBasedInpaint d w h region

/-- removeWatermarks: dispatch on the type tag per region, mutating in order.
The switch default arm (inpaintRegion) is unreachable: the type union is closed. -/
noncomputable def removeWatermarks (d : Buf) (w h : ℕ) (watermarks : List Region) : Buf :=
  watermarks.foldl (fun acc watermark =>
    match watermark.type with
    | .text => removeTextWatermark acc w h watermark
    | .transparent => removeTransparentWatermark acc w h watermark
    | .pattern => removePatternWatermark acc w h watermark
    | .logo => removeLogoWatermark acc w h watermark) d

/-! ### Post-processing filters (src/unnamed/part_000, lines 1192-1344) -/

/-- The convolution phase of applySelectiveSmoothing: reads the data buffer,
writes the smoothed interior (and copies the alpha byte) into the output
buffer, which starts as a copy of data. -/
def smoothOutput (w h : ℕ) (d : Buf) : Buf :=
  let kernel : List ℚ := [1, 2, 1, 2, 4, 2, 1, 2, 1]
  intFor 1 ((h : ℤ) - 1) 1 (fun y acc =>
    intFor 1 ((w : ℤ) - 1) 1 (fun x acc2 =>
      let s := intFor (-1) 2 1 (fun ky sacc =>
        intFor (-1) 2 1 (fun kx (sacc2 : ℚ × ℚ × ℚ) =>
          let idx := pixIdx w (x + kx) (y + ky)
          let weight := kernel.getD ((ky + 1) * 3 + (kx + 1)).toNat 0
          (sacc2.1 + getB d idx * weight,
           sacc2.2.1 + getB d (idx + 1) * weight,
           sacc2.2.2 + getB d (idx + 2) * weight)) sacc) ((0 : ℚ), (0 : ℚ), (0 : ℚ))
      let idx := pixIdx w x y
      setB (setB (setB (setB acc2
        idx ((jsRound (s.1 / 16) : ℤ) : ℚ))
        (idx + 1) ((jsRound (s.2.1 / 16) : ℤ) : ℚ))
        (idx + 2) ((jsRound (s.2.2 / 16) : ℤ) : ℚ))
        (idx + 3) (getB d (idx + 3))) acc) d

/-- The in-place blend phase of applySelectiveSmoothing (mix factor 0.3):
each channel byte is read from the current buffer right before its own write. -/
def smoothBlend (d output : Buf) : Buf :=
  intFor 0 d.length 4 (fun i acc =>
    let a1 := setB acc i
      ((jsRound (getB acc i * (1 - 0.3) + getB output i * 0.3) : ℤ) : ℚ)
    let a2 := setB a1 (i + 1)
      ((jsRound (getB a1 (i + 1) * (1 - 0.3) + getB output (i + 1) * 0.3) : ℤ) : ℚ)
    setB a2 (i + 2)
      ((jsRound (getB a2 (i + 2) * (1 - 0.3) + getB output (i + 2) * 0.3) : ℤ) : ℚ)) d

/-- applySelectiveSmoothing: center-weighted 3×3 convolution into a separate
output buffer, then a 0.3 blend back into the data buffer. -/
def applySelectiveSmoothing (w h : ℕ) (d : Buf) : Buf :=
  smoothBlend d (smoothOutput w h d)

/-- Modelled from the spec (§5): the snapshot-based reference blend, which
reads every input byte from the unmodified pre-filter buffer and writes into
a separate output buffer. -/
def smoothBlendSnapshot (d output : Buf) : Buf :=
  intFor 0 d.length 4 (fun i acc =>
    let a1 := setB acc i
      ((jsRound (getB d i * (1 - 0.3) + getB output i * 0.3) : ℤ) : ℚ)
    let a2 := setB a1 (i + 1)
      ((jsRound (getB d (i + 1) * (1 - 0.3) + getB output (i + 1) * 0.3) : ℤ) : ℚ)
    setB a2 (i + 2)
      ((jsRound (getB d (i + 2) * (1 - 0.3) + getB output (i + 2) * 0.3) : ℤ) : ℚ)) d

/-- Modelled from the spec (§5): snapshot-based reference of the whole
selective-smoothing pass. -/
def selectiveSmoothingSnapshot (w h : ℕ) (d : Buf) : Buf :=
  smoothBlendSnapshot d (smoothOutput w h d)

/-- adjustContrastBrightness: linear stretch around 128 with gain 1.05 and
brightness offset 0, clamped to [0,255]. -/
def adjustContrastBrightness (d : Buf) : Buf :=
  intFor 0 d.length 4 (fun i acc =>
    let a1 := setB acc i (min 255 (max 0 ((getB acc i - 128) * 1.05 + 128 + 0)))
    let a2 := setB a1 (i + 1) (min 255 (max 0 ((getB a1 (i + 1) - 128) * 1.05 + 128 + 0)))
    setB a2 (i + 2) (min 255 (max 0 ((getB a2 (i + 2) - 128) * 1.05 + 128 + 0)))) d

/-- reduceNoise: conditional 3×3 median filter, operating in place: the
neighbourhood of a later pixel reads values already rewritten in this pass. -/
def reduceNoise (w h : ℕ) (d : Buf) : Buf :=
  intFor 1 ((h : ℤ) - 1) 1 (fun y acc =>
    intFor 1 ((w : ℤ) - 1) 1 (fun x acc2 =>
      let neighbors := intFor (-1) 2 1 (fun dy ns =>
        intFor (-1) 2 1 (fun dx ns2 =>
          let idx := pixIdx w (x + dx) (y + dy)
          ns2 ++ [(⟨getB acc2 idx, getB acc2 (idx + 1), getB acc2 (idx + 2)⟩ : RGBc)]) ns) []
      let idx := pixIdx w x y
      let rValues := (neighbors.map RGBc.r).insertionSort (· ≤ ·)
      let gValues := (neighbors.map RGBc.g).insertionSort (· ≤ ·)
      let bValues := (neighbors.map RGBc.b).insertionSort (· ≤ ·)
      let medianIdx := neighbors.length / 2
      let a1 := if 30 < |getB acc2 idx - rValues.getD medianIdx 0| then
        setB acc2 idx (rValues.getD medianIdx 0) else acc2
      let a2 := if 30 < |getB a1 (idx + 1) - gValues.getD medianIdx 0| then
        setB a1 (idx + 1) (gValues.getD medianIdx 0) else a1
      if 30 < |getB a2 (idx + 2) - bValues.getD medianIdx 0| then
        setB a2 (idx + 2) (bValues.getD medianIdx 0) else a2) acc) d

/-- Modelled from the spec (§5): the snapshot-based reference noise filter,
computing every neighbourhood median and every write condition from the
unmodified pre-filter buffer, writing into a separate output buffer. -/
def reduceNoiseSnapshot (w h : ℕ) (d : Buf) : Buf :=
  intFor 1 ((h : ℤ) - 1) 1 (fun y acc =>
    intFor 1 ((w : ℤ) - 1) 1 (fun x acc2 =>
      let neighbors := intFor (-1) 2 1 (fun dy ns =>
        intFor (-1) 2 1 (fun dx ns2 =>
          let idx := pixIdx w (x + dx) (y + dy)
          ns2 ++ [(⟨getB d idx, getB d (idx + 1), getB d (idx + 2)⟩ : RGBc)]) ns) []
      let idx := pixIdx w x y
      let rValues := (neighbors.map RGBc.r).insertionSort (· ≤ ·)
      let gValues := (neighbors.map RGBc.g).insertionSort (· ≤ ·)
      let bValues := (neighbors.map RGBc.b).insertionSort (· ≤ ·)
      let medianIdx := neighbors.length / 2
      let a1 := if 30 < |getB d idx - rValues.getD medianIdx 0| then
        setB acc2 idx (rValues.getD medianIdx 0) else acc2
      let a2 := if 30 < |getB d (idx + 1) - gValues.getD medianIdx 0| then
        setB a1 (idx + 1) (gValues.getD medianIdx 0) else a1
      if 30 < |getB d (idx + 2) - bValues.getD medianIdx 0| then
        setB a2 (idx + 2) (bValues.getD medianIdx 0) else a2) acc) d

/-- applyPostProcessing: smoothing, then contrast, then noise reduction. -/
def applyPostProcessing (w h : ℕ) (d : Buf) : Buf :=
  reduceNoise w h (adjustContrastBrightness (applySelectiveSmoothing w h d))

/-- The fields of a successful ProcessingResult that depend on the pixel
pipeline (success flag, detected regions, output buffer). -/
structure PResult where
  success : Bool
  watermarksDetected : List Region
  output : Buf

/-- The success path of processImage (src/unnamed/part_000, lines 40-78):
detect, inpaint only when regions were found, always post-process, resolve
with success = true and the detected regions. -/
noncomputable def processImageOk (w h : ℕ) (d : Buf) : PResult :=
  let watermarks := detectWatermarks d w h
  let d1 := if 0 < watermarks.length then removeWatermarks d w h watermarks else d
  ⟨true, watermarks, applyPostProcessing w h d1⟩

/-! ### The lib variant (src/lib/watermark-processor.ts) where claims cite it -/

/-- mergeMultipleRegions of src/lib/watermark-processor.ts: bounding-box union
and mean confidence as in mergeRegions, but the type is simply the first
member region type (source comment: Simplificado). -/
noncomputable def mergeMultipleRegions (regions : List Region) : Region :=
  let minX := listMin (regions.map Region.x)
  let minY := listMin (regions.map Region.y)
  let maxX := listMax (regions.map fun r => r.x + r.width)
  let maxY := listMax (regions.map fun r => r.y + r.height)
  let avgConfidence :=
    (regions.map Region.confidence).foldl (· + ·) (0 : ℝ) / (regions.length : ℝ)
  { x := minX, y := minY, width := maxX - minX, height := maxY - minY,
    confidence := avgConfidence,
    type := (regions.headD ⟨0, 0, 0, 0, 0, .pattern⟩).type }



/-! ### NaN-faithful model of computePatchSimilarity
(src/unnamed/part_000, lines 933-962).  A JS number that may be NaN is an
Option: none is NaN.  An out-of-range typed-array read yields undefined,
which becomes NaN in arithmetic; NaN propagates through subtraction,
multiplication, addition, Math.sqrt, division, and Math.max. -/

/-- NaN-faithful byte read: undefined (hence NaN downstream) out of range. -/
def getBJ (d : Buf) (i : ℤ) : Option ℚ :=
  if 0 ≤ i ∧ i.toNat < d.length then some (getN d i.toNat) else none

/-- NaN-propagating subtraction. -/
def subJ {α : Type*} [Sub α] (a b : Option α) : Option α :=
  a.bind fun x => b.map fun y => x - y

/-- NaN-propagating multiplication. -/
def mulJ {α : Type*} [Mul α] (a b : Option α) : Option α :=
  a.bind fun x => b.map fun y => x * y

/-- NaN-propagating addition. -/
def addJ {α : Type*} [Add α] (a b : Option α) : Option α :=
  a.bind fun x => b.map fun y => x + y

/-- Math.sqrt with NaN: NaN in, or a negative argument, gives NaN. -/
noncomputable def sqrtJ (a : Option ℚ) : Option ℝ :=
  a.bind fun q => if q < 0 then none else some (Real.sqrt (q : ℝ))

open Classical in
/-- Division with NaN: a NaN operand or 0/0 gives NaN.  (A nonzero numerator
over 0 is Infinity in JS, not NaN; on the modelled path the denominator is a
pixel count that is zero only when no pixel was summed, so the numerator is
then 0 and the conflation with NaN is never observable.) -/
noncomputable def divJ (a b : Option ℝ) : Option ℝ :=
  a.bind fun x => b.bind fun y => if y = 0 then none else some (x / y)

/-- Math.max with NaN: any NaN argument gives NaN. -/
noncomputable def maxJ (a b : Option ℝ) : Option ℝ :=
  a.bind fun x => b.map fun y => max x y

/-- The sum/count loop of computePatchSimilarity with NaN-faithful reads:
identical to patchDiffAcc except that every data access goes through getBJ
and all arithmetic propagates NaN. -/
noncomputable def patchDiffAccJ (d : Buf) (w : ℕ) (x1 y1 x2 y2 halfPatch : ℤ) :
    Option ℝ × ℕ :=
  intFor (-halfPatch) (halfPatch + 1) 1 (fun dy acc =>
    intFor (-halfPatch) (halfPatch + 1) 1 (fun dx (acc2 : Option ℝ × ℕ) =>
      let idx1 := pixIdx w (x1 + dx) (y1 + dy)
      let idx2 := pixIdx w (x2 + dx) (y2 + dy)
      let dr := subJ (getBJ d idx1) (getBJ d idx2)
      let dg := subJ (getBJ d (idx1 + 1)) (getBJ d (idx2 + 1))
      let db := subJ (getBJ d (idx1 + 2)) (getBJ d (idx2 + 2))
      (addJ acc2.1 (sqrtJ (addJ (addJ (mulJ dr dr) (mulJ dg dg)) (mulJ db db))),
       acc2.2 + 1)) acc)
    (some 0, 0)

/-- computePatchSimilarity with NaN-faithful reads: none is NaN.  The only
difference from computePatchSimilarity is that an out-of-range read enters
the sum as NaN instead of 0, exactly as in the source. -/
noncomputable def computePatchSimilarityJ (d : Buf) (w : ℕ) (x1 y1 x2 y2 : ℤ)
    (patchSize : ℤ) : Option ℝ :=
  let halfPatch := ((patchSize : ℚ) / 2).floor
  let sc := patchDiffAccJ d w x1 y1 x2 y2 halfPatch
  let avgDiff := divJ sc.1 (some (sc.2 : ℝ))
  maxJ (some 0) (subJ (some 1) (divJ avgDiff (some 441)))

/-- The patch of half size hp centered at (x, y) reads only indices that lie
inside the byte array (all three colour channels of every patch pixel). -/
def patchInBounds (d : Buf) (w : ℕ) (x y hp : ℤ) : Prop :=
  ∀ dx dy : ℤ, -hp ≤ dx → dx ≤ hp → -hp ≤ dy → dy ≤ hp →
    0 ≤ pixIdx w (x + dx) (y + dy) ∧ (pixIdx w (x + dx) (y + dy)).toNat + 2 < d.length

/-- A 1×1 opaque buffer: the 9×9 patch centered at its only pixel (0, 0)
reaches far outside the byte array. -/
def patchCexBuf : Buf := [100, 100, 100, 255]

/-- A 9×9 uniform buffer on which the 9×9 patch centered at (4, 4) lies
entirely inside the byte array. -/
def patchOkBuf : Buf := List.replicate 324 100

/-! ### Generic fold invariants -/

theorem foldl_pres {σ α : Type*} (P : σ → Prop) {f : σ → α → σ}
    (hf : ∀ s a, P s → P (f s a)) : ∀ (l : List α) {s : σ}, P s → P (l.foldl f s) := by
  intro l
  induction l with
  | nil => intro s hs; exact hs
  | cons a l ih => intro s hs; exact ih (hf _ _ hs)

theorem intFor_pres {σ : Type*} (P : σ → Prop) {start bound : ℤ} {step : ℕ}
    {f : ℤ → σ → σ} (hf : ∀ i s, P s → P (f i s)) {init : σ} (h0 : P init) :
    P (intFor start bound step f init) :=
  foldl_pres P (fun s _k hs => hf _ s hs) _ h0

/-! ### Byte-store frame lemmas -/

theorem length_setB (d : Buf) (i : ℤ) (v : ℚ) : (setB d i v).length = d.length := by
  unfold setB
  split
  · exact List.length_set d _ _
  · rfl

theorem getN_setB_ne {d : Buf} {i : ℤ} {j : ℕ} (h : i ≠ (j : ℤ)) (v : ℚ) :
    getN (setB d i v) j = getN d j := by
  unfold setB getN
  split
  · next hpos =>
    rw [List.getD_eq_getElem?_getD, List.getD_eq_getElem?_getD, List.getElem?_set_ne]
    omega
  · rfl

/-- Alpha preservation relative to an original buffer: same length, and every
byte at an index congruent to 3 mod 4 (the alpha channel) is unchanged. -/
def APres (d0 d : Buf) : Prop :=
  d.length = d0.length ∧ ∀ p : ℕ, getN d (4 * p + 3) = getN d0 (4 * p + 3)

theorem apres_refl (d0 : Buf) : APres d0 d0 := ⟨rfl, fun _ => rfl⟩

theorem apres_trans {a b c : Buf} (h1 : APres a b) (h2 : APres b c) : APres a c :=
  ⟨h2.1.trans h1.1, fun p => (h2.2 p).trans (h1.2 p)⟩

theorem apres_setB {d0 d : Buf} (h : APres d0 d) {i : ℤ} (hi : i % 4 ≠ 3) (v : ℚ) :
    APres d0 (setB d i v) := by
  refine ⟨(length_setB d i v).trans h.1, fun p => ?_⟩
  rw [getN_setB_ne (by push_cast; omega) v]
  exact h.2 p

theorem pixIdx_ne3_0 (w : ℕ) (x y : ℤ) : (pixIdx w x y) % 4 ≠ 3 := by
  unfold pixIdx
  generalize y * (w : ℤ) + x = m
  omega

theorem pixIdx_ne3_1 (w : ℕ) (x y : ℤ) : (pixIdx w x y + 1) % 4 ≠ 3 := by
  unfold pixIdx
  generalize y * (w : ℤ) + x = m
  omega

theorem pixIdx_ne3_2 (w : ℕ) (x y : ℤ) : (pixIdx w x y + 2) % 4 ≠ 3 := by
  unfold pixIdx
  generalize y * (w : ℤ) + x = m
  omega

/-! ### Length bound of the greedy merge -/

theorem greedyMerge_length_le : ∀ (l : List Region), (greedyMerge l).length ≤ l.length := by
  have key : ∀ (n : ℕ) (l : List Region), l.length ≤ n →
      (greedyMerge l).length ≤ l.length := by
    intro n
    induction n with
    | zero =>
      intro l hl
      rw [Nat.le_zero, List.length_eq_zero] at hl
      subst hl
      simp [greedyMerge]
    | succ n ih =>
      intro l hl
      match l with
      | [] => simp [greedyMerge]
      | r :: rest =>
        rw [greedyMerge]
        simp only [List.length_cons, Nat.add_le_add_iff_right]
        have hrem := List.length_filter_le (fun s => !decide (regionsOverlap r s)) rest
        have hlen : (rest.filter fun s => !decide (regionsOverlap r s)).length ≤ n := by
          simp only [List.length_cons] at hl
          omega
        calc (greedyMerge (rest.filter fun s => !decide (regionsOverlap r s))).length
            ≤ (rest.filter fun s => !decide (regionsOverlap r s)).length := ih _ hlen
          _ ≤ rest.length := hrem
  intro l
  exact key l.length l le_rfl

/-! ### Greedy clustering partitions its input -/

theorem greedyGroups_join_perm : ∀ (l : List Region),
    ((greedyGroups l).flatten).Perm l := by
  have key : ∀ (n : ℕ) (l : List Region), l.length ≤ n →
      ((greedyGroups l).flatten).Perm l := by
    intro n
    induction n with
    | zero =>
      intro l hl
      rw [Nat.le_zero, List.length_eq_zero] at hl
      subst hl
      simp [greedyGroups]
    | succ n ih =>
      intro l hl
      match l with
      | [] => simp [greedyGroups]
      | r :: rest =>
        rw [greedyGroups]
        rw [List.flatten_cons, List.cons_append]
        refine List.Perm.cons r ?_
        have hlen : (rest.filter fun s => !decide (regionsOverlap r s)).length ≤ n := by
          have := List.length_filter_le (fun s => !decide (regionsOverlap r s)) rest
          simp only [List.length_cons] at hl
          omega
        exact (List.Perm.append_left _ (ih _ hlen)).trans (List.filter_append_perm _ rest)
  intro l
  exact key l.length l le_rfl

theorem greedyGroups_ne_nil : ∀ (l : List Region), ∀ g ∈ greedyGroups l, g ≠ [] := by
  have key : ∀ (n : ℕ) (l : List Region), l.length ≤ n →
      ∀ g ∈ greedyGroups l, g ≠ [] := by
    intro n
    induction n with
    | zero =>
      intro l hl
      rw [Nat.le_zero, List.length_eq_zero] at hl
      subst hl
      simp [greedyGroups]
    | succ n ih =>
      intro l hl
      match l with
      | [] => simp [greedyGroups]
      | r :: rest =>
        rw [greedyGroups]
        intro g hg
        rcases List.mem_cons.mp hg with hg | hg
        · subst hg; exact List.cons_ne_nil _ _
        · have hlen : (rest.filter fun s => !decide (regionsOverlap r s)).length ≤ n := by
            have := List.length_filter_le (fun s => !decide (regionsOverlap r s)) rest
            simp only [List.length_cons] at hl
            omega
          exact ih _ hlen g hg
  intro l
  exact key l.length l le_rfl

theorem greedyMerge_eq_map_groups : ∀ (l : List Region),
    greedyMerge l = (greedyGroups l).map mergeOfGroup := by
  have key : ∀ (n : ℕ) (l : List Region), l.length ≤ n →
      greedyMerge l = (greedyGroups l).map mergeOfGroup := by
    intro n
    induction n with
    | zero =>
      intro l hl
      rw [Nat.le_zero, List.length_eq_zero] at hl
      subst hl
      simp [greedyMerge, greedyGroups]
    | succ n ih =>
      intro l hl
      match l with
      | [] => simp [greedyMerge, greedyGroups]
      | r :: rest =>
        rw [greedyMerge, greedyGroups]
        rw [List.map_cons]
        have hlen : (rest.filter fun s => !decide (regionsOverlap r s)).length ≤ n := by
          have := List.length_filter_le (fun s => !decide (regionsOverlap r s)) rest
          simp only [List.length_cons] at hl
          omega
        rw [ih _ hlen]
        rfl
  intro l
  exact key l.length l le_rfl

/-! ### Fold-min and fold-max facts for the bounding-box union -/

theorem foldl_min_le_init : ∀ (xs : List ℤ) (a : ℤ), xs.foldl min a ≤ a := by
  intro xs
  induction xs with
  | nil => intro a; exact le_rfl
  | cons x xs ih =>
    intro a
    calc (x :: xs).foldl min a = xs.foldl min (min a x) := rfl
      _ ≤ min a x := ih _
      _ ≤ a := min_le_left _ _

theorem foldl_min_le_mem : ∀ (xs : List ℤ) (a : ℤ), ∀ x ∈ xs, xs.foldl min a ≤ x := by
  intro xs
  induction xs with
  | nil => intro a x hx; cases hx
  | cons y ys ih =>
    intro a x hx
    rcases List.mem_cons.mp hx with hx | hx
    · subst hx
      calc (x :: ys).foldl min a = ys.foldl min (min a x) := rfl
        _ ≤ min a x := foldl_min_le_init _ _
        _ ≤ x := min_le_right _ _
    · exact ih (min a y) x hx

theorem init_le_foldl_max : ∀ (xs : List ℤ) (a : ℤ), a ≤ xs.foldl max a := by
  intro xs
  induction xs with
  | nil => intro a; exact le_rfl
  | cons x xs ih =>
    intro a
    calc a ≤ max a x := le_max_left _ _
      _ ≤ xs.foldl max (max a x) := ih _
      _ = (x :: xs).foldl max a := rfl

theorem mem_le_foldl_max : ∀ (xs : List ℤ) (a : ℤ), ∀ x ∈ xs, x ≤ xs.foldl max a := by
  intro xs
  induction xs with
  | nil => intro a x hx; cases hx
  | cons y ys ih =>
    intro a x hx
    rcases List.mem_cons.mp hx with hx | hx
    · subst hx
      calc x ≤ max a x := le_max_right _ _
        _ ≤ ys.foldl max (max a x) := init_le_foldl_max _ _
    · exact ih (max a y) x hx

theorem listMin_le {l : List ℤ} {x : ℤ} (hx : x ∈ l) : listMin l ≤ x := by
  match l with
  | [] => cases hx
  | y :: ys =>
    unfold listMin
    rcases List.mem_cons.mp hx with hx | hx
    · subst hx; exact foldl_min_le_init ys x
    · exact foldl_min_le_mem ys y x hx

theorem le_listMax {l : List ℤ} {x : ℤ} (hx : x ∈ l) : x ≤ listMax l := by
  match l with
  | [] => cases hx
  | y :: ys =>
    unfold listMax
    rcases List.mem_cons.mp hx with hx | hx
    · subst hx; exact init_le_foldl_max ys x
    · exact mem_le_foldl_max ys y x hx

theorem foldl_add_eq_sum : ∀ (l : List ℝ) (a : ℝ), l.foldl (· + ·) a = a + l.sum := by
  intro l
  induction l with
  | nil => intro a; simp
  | cons x xs ih =>
    intro a
    calc (x :: xs).foldl (· + ·) a = xs.foldl (· + ·) (a + x) := rfl
      _ = (a + x) + xs.sum := ih _
      _ = a + (x :: xs).sum := by rw [List.sum_cons]; ring


/-! ### Claim theorems: consolidation and detection -/

/-- C6: for every candidate region list, consolidateRegions returns at most
the configured cap of 10 regions, and never more regions than the number of
candidates it was given. -/
theorem C6_consolidation_cap : ∀ (regions : List Region),
    (consolidateRegions regions).length ≤ 10 ∧
    (consolidateRegions regions).length ≤ regions.length := by
  intro regions
  unfold consolidateRegions
  split
  · simp
  · constructor
    · rw [List.length_take]
      exact min_le_left _ _
    · calc ((greedyMerge (sortedOf regions)).take 10).length
          ≤ (greedyMerge (sortedOf regions)).length := by
            rw [List.length_take]; exact min_le_right _ _
        _ ≤ (sortedOf regions).length := greedyMerge_length_le _
        _ = (filteredOf regions).length := by
            unfold sortedOf
            exact List.length_insertionSort _ _
        _ ≤ regions.length := List.length_filter_le _ _

/-- C7: for every non-empty cluster, the merged region is the bounding-box
union of the members (min of x and y, max of x+width and y+height), hence
contains every member rectangle, and its confidence is the arithmetic mean
of the member confidences. -/
theorem C7_merge_bounding_box : ∀ (rs : List Region), rs ≠ [] →
    (mergeRegions rs).x = listMin (rs.map Region.x) ∧
    (mergeRegions rs).y = listMin (rs.map Region.y) ∧
    (mergeRegions rs).x + (mergeRegions rs).width = listMax (rs.map fun r => r.x + r.width) ∧
    (mergeRegions rs).y + (mergeRegions rs).height = listMax (rs.map fun r => r.y + r.height) ∧
    (∀ r ∈ rs, (mergeRegions rs).x ≤ r.x ∧ (mergeRegions rs).y ≤ r.y ∧
      r.x + r.width ≤ (mergeRegions rs).x + (mergeRegions rs).width ∧
      r.y + r.height ≤ (mergeRegions rs).y + (mergeRegions rs).height) ∧
    (mergeRegions rs).confidence = (rs.map Region.confidence).sum / (rs.length : ℝ) := by
  intro rs _hne
  refine ⟨rfl, rfl, by unfold mergeRegions; ring, by unfold mergeRegions; ring, ?_, ?_⟩
  · intro r hr
    refine ⟨listMin_le (List.mem_map_of_mem Region.x hr),
            listMin_le (List.mem_map_of_mem Region.y hr), ?_, ?_⟩
    · have h1 : r.x + r.width ≤ listMax (rs.map fun r => r.x + r.width) :=
        le_listMax (List.mem_map_of_mem _ hr)
      have h2 : (mergeRegions rs).x + (mergeRegions rs).width =
          listMax (rs.map fun r => r.x + r.width) := by unfold mergeRegions; ring
      omega
    · have h1 : r.y + r.height ≤ listMax (rs.map fun r => r.y + r.height) :=
        le_listMax (List.mem_map_of_mem _ hr)
      have h2 : (mergeRegions rs).y + (mergeRegions rs).height =
          listMax (rs.map fun r => r.y + r.height) := by unfold mergeRegions; ring
      omega
  · show (rs.map Region.confidence).foldl (· + ·) 0 / (rs.length : ℝ) = _
    rw [foldl_add_eq_sum, zero_add]

/-- C8: each of the five region detectors returns its candidate list without
mutating any pixel of the buffer, and detectWatermarks leaves the buffer it
was given unchanged. -/
theorem C8_detectors_read_only : ∀ (d : Buf) (w h : ℕ),
    (detectByFrequencyAnalysisSt d w h).1 = d ∧
    (detectTextByContrastSt d w h).1 = d ∧
    (detectRepeatingPatternsSt d w h).1 = d ∧
    (detectTransparentOverlaysSt d w h).1 = d ∧
    (detectByEdgeAnalysisSt d w h).1 = d ∧
    (detectWatermarksSt d w h).1 = d ∧
    (detectWatermarksSt d w h).2 = detectWatermarks d w h :=
  fun _ _ _ => ⟨rfl, rfl, rfl, rfl, rfl, rfl, rfl⟩

/-- C10: the greedy clustering partitions the confidence-filtered candidate
list: the clusters are non-empty, their concatenation is a permutation of the
sorted filtered list (so every filtered candidate lands in exactly one
cluster), and the merged output before the cap is exactly one region per
cluster. -/
theorem C10_clustering_partitions : ∀ (regions : List Region),
    ((greedyGroups (sortedOf regions)).flatten).Perm (filteredOf regions) ∧
    (∀ g ∈ greedyGroups (sortedOf regions), g ≠ []) ∧
    greedyMerge (sortedOf regions) = (greedyGroups (sortedOf regions)).map mergeOfGroup := by
  intro regions
  refine ⟨?_, greedyGroups_ne_nil _, greedyMerge_eq_map_groups _⟩
  have h1 := greedyGroups_join_perm (sortedOf regions)
  have h2 : (sortedOf regions).Perm (filteredOf regions) := by
    unfold sortedOf
    exact List.perm_insertionSort _ _
  exact h1.trans h2


/-! ### Claim theorems: patch similarity -/

theorem intFor_pres_range1 {σ : Type*} (P : σ → Prop) {start bound : ℤ}
    {f : ℤ → σ → σ} (hf : ∀ i s, start ≤ i → i < bound → P s → P (f i s))
    {init : σ} (h0 : P init) : P (intFor start bound 1 f init) := by
  unfold intFor
  suffices h : ∀ (l : List ℕ), (∀ k ∈ l, k < loopCount start bound 1) → ∀ s, P s →
      P (l.foldl (fun s (k : ℕ) => f (start + (k : ℤ) * ((1 : ℕ) : ℤ)) s) s) by
    exact h (List.range _) (fun k hk => List.mem_range.mp hk) init h0
  intro l
  induction l with
  | nil => intro _ s hs; exact hs
  | cons a l ih =>
    intro hmem s hs
    rw [List.foldl_cons]
    refine ih (fun k hk => hmem k (List.mem_cons_of_mem a hk)) _ ?_
    have ha := hmem a (List.mem_cons_self a l)
    have hlt : start + (a : ℤ) * ((1 : ℕ) : ℤ) < bound := by
      unfold loopCount at ha
      omega
    exact hf _ _ (by omega) hlt hs

theorem foldl_snd_add {β : Type*} {f : (β × ℕ) → ℕ → (β × ℕ)} {c : ℕ}
    (hf : ∀ a k, (f a k).2 = a.2 + c) :
    ∀ (l : List ℕ) (acc : β × ℕ), (l.foldl f acc).2 = acc.2 + l.length * c := by
  intro l
  induction l with
  | nil => intro acc; simp
  | cons a l ih =>
    intro acc
    rw [List.foldl_cons, ih, hf, List.length_cons]
    ring

theorem getBJ_in3 (d : Buf) {i : ℤ} (h0 : 0 ≤ i) (hlt : i.toNat + 2 < d.length) :
    getBJ d i = some (getN d i.toNat) ∧
    getBJ d (i + 1) = some (getN d (i + 1).toNat) ∧
    getBJ d (i + 2) = some (getN d (i + 2).toNat) :=
  ⟨by unfold getBJ; rw [if_pos ⟨h0, by omega⟩],
   by unfold getBJ; rw [if_pos ⟨by omega, by omega⟩],
   by unfold getBJ; rw [if_pos ⟨by omega, by omega⟩]⟩

theorem subJ_some {α : Type*} [Sub α] (a b : α) : subJ (some a) (some b) = some (a - b) :=
  rfl

theorem mulJ_some {α : Type*} [Mul α] (a b : α) : mulJ (some a) (some b) = some (a * b) :=
  rfl

theorem addJ_some {α : Type*} [Add α] (a b : α) : addJ (some a) (some b) = some (a + b) :=
  rfl

theorem sqrtJ_some_nonneg {q : ℚ} (h : 0 ≤ q) :
    sqrtJ (some q) = some (Real.sqrt (q : ℝ)) := by
  unfold sqrtJ
  rw [Option.some_bind, if_neg (not_lt.mpr h)]

theorem divJ_some {x y : ℝ} (h : y ≠ 0) : divJ (some x) (some y) = some (x / y) := by
  unfold divJ
  rw [Option.some_bind, Option.some_bind, if_neg h]

theorem maxJ_some (a b : ℝ) : maxJ (some a) (some b) = some (max a b) := rfl

theorem patchDiffAccJ_some (d : Buf) (w : ℕ) (x1 y1 x2 y2 hp : ℤ)
    (h1 : patchInBounds d w x1 y1 hp) (h2 : patchInBounds d w x2 y2 hp) :
    ∃ s : ℝ, (patchDiffAccJ d w x1 y1 x2 y2 hp).1 = some s ∧ 0 ≤ s := by
  unfold patchDiffAccJ
  refine intFor_pres_range1 (fun acc : Option ℝ × ℕ => ∃ s, acc.1 = some s ∧ 0 ≤ s)
    (fun dy acc hdy1 hdy2 hacc => ?_) ⟨0, rfl, le_rfl⟩
  refine intFor_pres_range1 (fun acc : Option ℝ × ℕ => ∃ s, acc.1 = some s ∧ 0 ≤ s)
    (fun dx acc2 hdx1 hdx2 hacc2 => ?_) hacc
  obtain ⟨s, hs, hsnn⟩ := hacc2
  obtain ⟨hb1a, hb1b⟩ := h1 dx dy hdx1 (by omega) hdy1 (by omega)
  obtain ⟨hb2a, hb2b⟩ := h2 dx dy hdx1 (by omega) hdy1 (by omega)
  obtain ⟨e1, e2, e3⟩ := getBJ_in3 d hb1a hb1b
  obtain ⟨e4, e5, e6⟩ := getBJ_in3 d hb2a hb2b
  dsimp only
  rw [hs, e1, e2, e3, e4, e5, e6]
  simp only [subJ_some, mulJ_some, addJ_some]
  rw [sqrtJ_some_nonneg (add_nonneg (add_nonneg (mul_self_nonneg _) (mul_self_nonneg _))
    (mul_self_nonneg _))]
  simp only [addJ_some]
  exact ⟨_, rfl, add_nonneg hsnn (Real.sqrt_nonneg _)⟩

theorem patchDiffAccJ_self (d : Buf) (w : ℕ) (x y hp : ℤ)
    (h : patchInBounds d w x y hp) :
    (patchDiffAccJ d w x y x y hp).1 = some 0 := by
  unfold patchDiffAccJ
  refine intFor_pres_range1 (fun acc : Option ℝ × ℕ => acc.1 = some 0)
    (fun dy acc hdy1 hdy2 hacc => ?_) rfl
  refine intFor_pres_range1 (fun acc : Option ℝ × ℕ => acc.1 = some 0)
    (fun dx acc2 hdx1 hdx2 hacc2 => ?_) hacc
  obtain ⟨hba, hbb⟩ := h dx dy hdx1 (by omega) hdy1 (by omega)
  obtain ⟨e1, e2, e3⟩ := getBJ_in3 d hba hbb
  dsimp only
  rw [hacc2, e1, e2, e3]
  simp only [subJ_some, sub_self, mulJ_some, mul_zero, addJ_some, add_zero]
  rw [sqrtJ_some_nonneg le_rfl]
  norm_num [addJ_some, Real.sqrt_zero]

theorem patchDiffAccJ_count (d : Buf) (w : ℕ) (x1 y1 x2 y2 hp : ℤ) :
    (patchDiffAccJ d w x1 y1 x2 y2 hp).2 =
      loopCount (-hp) (hp + 1) 1 * loopCount (-hp) (hp + 1) 1 := by
  unfold patchDiffAccJ intFor
  generalize loopCount (-hp) (hp + 1) 1 = n
  have houter : ∀ (a : Option ℝ × ℕ) (k : ℕ),
      ((fun (s : Option ℝ × ℕ) (k : ℕ) =>
        (fun dy acc =>
          (List.range n).foldl (fun (s2 : Option ℝ × ℕ) (k2 : ℕ) =>
            (fun dx (acc2 : Option ℝ × ℕ) =>
              let idx1 := pixIdx w (x1 + dx) (y1 + dy)
              let idx2 := pixIdx w (x2 + dx) (y2 + dy)
              let dr := subJ (getBJ d idx1) (getBJ d idx2)
              let dg := subJ (getBJ d (idx1 + 1)) (getBJ d (idx2 + 1))
              let db := subJ (getBJ d (idx1 + 2)) (getBJ d (idx2 + 2))
              (addJ acc2.1 (sqrtJ (addJ (addJ (mulJ dr dr) (mulJ dg dg)) (mulJ db db))),
               acc2.2 + 1)) (-hp + (k2 : ℤ) * ((1 : ℕ) : ℤ)) s2) acc)
          (-hp + (k : ℤ) * ((1 : ℕ) : ℤ)) s) a k).2 = a.2 + n := by
    intro a k
    dsimp only
    rw [foldl_snd_add (fun _ _ => rfl)]
    simp [List.length_range]
  rw [foldl_snd_add houter]
  simp [List.length_range]

/-- C9 counterexample: on a 1×1 image, computing the similarity of the patch
centered at (0, 0) with itself (patchSize 9, the value used in the logo
path, whose target patch findBestPatch never clips to the buffer) reads out
of range; in the NaN-faithful model the result is none, i.e. NaN — not a
score in [0, 1], and not 1 although the two patch centers are equal. -/
theorem C9_counterexample_nan :
    computePatchSimilarityJ patchCexBuf 1 0 0 0 0 9 = none ∧
    computePatchSimilarityJ patchCexBuf 1 0 0 0 0 9 ≠ some 1 := by
  have h : computePatchSimilarityJ patchCexBuf 1 0 0 0 0 9 = none := by
    with_unfolding_all rfl
  exact ⟨h, by rw [h]; simp⟩

/-- C9 amended: for every pair of patch centers with a nonnegative patch
size whose two patches lie entirely inside the byte array, the score is
defined (not NaN) and lies in [0, 1]; and a patch compared with itself under
the same conditions yields exactly 1.  (When a patch reaches outside the
buffer the source computes NaN, see the counterexample.) -/
theorem C9_amended_patch_similarity :
    (∀ (d : Buf) (w : ℕ) (x1 y1 x2 y2 patchSize : ℤ), 0 ≤ patchSize →
        patchInBounds d w x1 y1 (((patchSize : ℚ) / 2).floor) →
        patchInBounds d w x2 y2 (((patchSize : ℚ) / 2).floor) →
        ∃ r : ℝ, computePatchSimilarityJ d w x1 y1 x2 y2 patchSize = some r ∧
          0 ≤ r ∧ r ≤ 1) ∧
    (∀ (d : Buf) (w : ℕ) (x y patchSize : ℤ), 0 ≤ patchSize →
        patchInBounds d w x y (((patchSize : ℚ) / 2).floor) →
        computePatchSimilarityJ d w x y x y patchSize = some 1) := by
  have hcount : ∀ (d : Buf) (w : ℕ) (x1 y1 x2 y2 p : ℤ), 0 ≤ p →
      ((patchDiffAccJ d w x1 y1 x2 y2 (((p : ℚ) / 2).floor)).2 : ℝ) ≠ 0 := by
    intro d w x1 y1 x2 y2 p hp0
    have hhp : 0 ≤ ((p : ℚ) / 2).floor := by
      refine Rat.le_floor.mpr ?_
      have hq : (0 : ℚ) ≤ (p : ℚ) := by exact_mod_cast hp0
      push_cast
      linarith
    have hn : 1 ≤ loopCount (-(((p : ℚ) / 2).floor)) ((((p : ℚ) / 2).floor) + 1) 1 := by
      unfold loopCount
      omega
    rw [patchDiffAccJ_count]
    exact Nat.cast_ne_zero.mpr (Nat.mul_ne_zero (by omega) (by omega))
  constructor
  · intro d w x1 y1 x2 y2 p hp0 h1 h2
    obtain ⟨s, hs, hsnn⟩ := patchDiffAccJ_some d w x1 y1 x2 y2 _ h1 h2
    simp only [computePatchSimilarityJ]
    rw [hs, divJ_some (hcount d w x1 y1 x2 y2 p hp0),
      divJ_some (show (441 : ℝ) ≠ 0 by norm_num), subJ_some, maxJ_some]
    refine ⟨_, rfl, le_max_left _ _, ?_⟩
    refine max_le (by norm_num) ?_
    have hdiv : 0 ≤ s / ((patchDiffAccJ d w x1 y1 x2 y2 (((p : ℚ) / 2).floor)).2 : ℝ) / 441 := by
      positivity
    linarith
  · intro d w x y p hp0 h
    have hs := patchDiffAccJ_self d w x y _ h
    simp only [computePatchSimilarityJ]
    rw [hs, divJ_some (hcount d w x y x y p hp0),
      divJ_some (show (441 : ℝ) ≠ 0 by norm_num), subJ_some, maxJ_some]
    norm_num

/-- C9 witness: the amended statement applied on the 9×9 uniform buffer to
the in-bounds 9×9 patch centered at (4, 4), compared with itself. -/
theorem C9_amended_patch_similarity_witness :
    (0 : ℤ) ≤ 9 ∧ computePatchSimilarityJ patchOkBuf 9 4 4 4 4 9 = some 1 := by
  have hfl : (((9 : ℚ) / 2).floor) = 4 := by with_unfolding_all decide
  have hin : patchInBounds patchOkBuf 9 4 4 (((9 : ℚ) / 2).floor) := by
    rw [hfl]
    intro dx dy h1 h2 h3 h4
    have hlen : patchOkBuf.length = 324 := by
      simp [patchOkBuf, List.length_replicate]
    unfold pixIdx
    rw [hlen]
    omega
  exact ⟨by norm_num, C9_amended_patch_similarity.2 patchOkBuf 9 4 4 9 (by norm_num) hin⟩

/-! ### Alpha-channel preservation of the inpainting strategies -/

theorem contentAwareInpaint_apres (d : Buf) (w h : ℕ) (region : Rect) :
    APres d (contentAwareInpaint d w h region) := by
  unfold contentAwareInpaint
  refine intFor_pres (APres d) (fun y acc hacc => ?_) (apres_refl d)
  refine intFor_pres (APres d) (fun x acc2 hacc2 => ?_) hacc
  split
  · exact apres_setB (apres_setB (apres_setB hacc2 (pixIdx_ne3_0 w x y) _)
      (pixIdx_ne3_1 w x y) _) (pixIdx_ne3_2 w x y) _
  · exact hacc2

theorem removeTextWatermark_apres (d : Buf) (w h : ℕ) (region : Region) :
    APres d (removeTextWatermark d w h region) := by
  unfold removeTextWatermark
  exact contentAwareInpaint_apres d w h _

theorem removeTransparentWatermark_apres (d : Buf) (w h : ℕ) (region : Region) :
    APres d (removeTransparentWatermark d w h region) := by
  unfold removeTransparentWatermark
  refine intFor_pres (APres d) (fun y acc hacc => ?_) (apres_refl d)
  refine intFor_pres (APres d) (fun x acc2 hacc2 => ?_) hacc
  dsimp only
  split
  · exact apres_setB (apres_setB (apres_setB hacc2 (pixIdx_ne3_0 w x y) _)
      (pixIdx_ne3_1 w x y) _) (pixIdx_ne3_2 w x y) _
  · exact hacc2

theorem fourierInpaint_apres (d : Buf) (w h : ℕ) (region : Region) :
    APres d (fourierInpaint d w h region) := by
  unfold fourierInpaint
  refine intFor_pres (APres d) (fun y acc hacc => ?_) (apres_refl d)
  refine intFor_pres (APres d) (fun x acc2 hacc2 => ?_) hacc
  split
  · exact apres_setB (apres_setB (apres_setB hacc2 (pixIdx_ne3_0 w x y) _)
      (pixIdx_ne3_1 w x y) _) (pixIdx_ne3_2 w x y) _
  · exact hacc2

theorem removePatternWatermark_apres (d : Buf) (w h : ℕ) (region : Region) :
    APres d (removePatternWatermark d w h region) :=
  fourierInpaint_apres d w h region

theorem patchBasedInpaint_apres (d : Buf) (w h : ℕ) (region : Region) :
    APres d (patchBasedInpaint d w h region) := by
  unfold patchBasedInpaint
  refine intFor_pres (APres d) (fun _iter acc hacc => ?_) (apres_refl d)
  refine intFor_pres (APres d) (fun y acc2 hacc2 => ?_) hacc
  refine intFor_pres (APres d) (fun x acc3 hacc3 => ?_) hacc2
  dsimp only
  split
  · exact apres_setB (apres_setB (apres_setB hacc3 (pixIdx_ne3_0 w x y) _)
      (pixIdx_ne3_1 w x y) _) (pixIdx_ne3_2 w x y) _
  · exact hacc3

theorem removeLogoWatermark_apres (d : Buf) (w h : ℕ) (region : Region) :
    APres d (removeLogoWatermark d w h region) :=
  patchBasedInpaint_apres d w h region

theorem inpaintRegion_apres (d : Buf) (w h : ℕ) (region : Region) :
    APres d (inpaintRegion d w h region) := by
  unfold inpaintRegion
  refine intFor_pres (APres d) (fun _iter acc hacc => ?_) (apres_refl d)
  refine intFor_pres (APres d) (fun y acc2 hacc2 => ?_) hacc
  refine intFor_pres (APres d) (fun x acc3 hacc3 => ?_) hacc2
  dsimp only
  split
  · exact apres_setB (apres_setB (apres_setB hacc3 (pixIdx_ne3_0 w x y) _)
      (pixIdx_ne3_1 w x y) _) (pixIdx_ne3_2 w x y) _
  · exact hacc3

theorem removeWatermarks_apres (d : Buf) (w h : ℕ) (watermarks : List Region) :
    APres d (removeWatermarks d w h watermarks) := by
  unfold removeWatermarks
  refine foldl_pres (APres d) (fun acc wm hacc => ?_) watermarks (apres_refl d)
  rcases wm with ⟨x, y, width, height, confidence, ty⟩
  cases ty
  · exact apres_trans hacc (removeTextWatermark_apres acc w h _)
  · exact apres_trans hacc (removeLogoWatermark_apres acc w h _)
  · exact apres_trans hacc (removePatternWatermark_apres acc w h _)
  · exact apres_trans hacc (removeTransparentWatermark_apres acc w h _)

/-- C2: after removeWatermarks runs, and after each individual inpainting
strategy (text, transparent, pattern, logo, and the generic inpaintRegion of
the unreachable default arm), the buffer keeps its length and every alpha
byte (index 4p+3) is bit-identical to its value before inpainting. -/
theorem C2_alpha_channel_preserved :
    ∀ (d : Buf) (w h : ℕ) (watermarks : List Region) (rect : Rect)
      (region : Region) (p : ℕ),
      (removeWatermarks d w h watermarks).length = d.length ∧
      getN (removeWatermarks d w h watermarks) (4 * p + 3) = getN d (4 * p + 3) ∧
      getN (removeTextWatermark d w h region) (4 * p + 3) = getN d (4 * p + 3) ∧
      getN (removeTransparentWatermark d w h region) (4 * p + 3) = getN d (4 * p + 3) ∧
      getN (removePatternWatermark d w h region) (4 * p + 3) = getN d (4 * p + 3) ∧
      getN (removeLogoWatermark d w h region) (4 * p + 3) = getN d (4 * p + 3) ∧
      getN (inpaintRegion d w h region) (4 * p + 3) = getN d (4 * p + 3) ∧
      getN (contentAwareInpaint d w h rect) (4 * p + 3) = getN d (4 * p + 3) :=
  fun d w h watermarks rect region p =>
    ⟨(removeWatermarks_apres d w h watermarks).1,
     (removeWatermarks_apres d w h watermarks).2 p,
     (removeTextWatermark_apres d w h region).2 p,
     (removeTransparentWatermark_apres d w h region).2 p,
     (removePatternWatermark_apres d w h region).2 p,
     (removeLogoWatermark_apres d w h region).2 p,
     (inpaintRegion_apres d w h region).2 p,
     (contentAwareInpaint_apres d w h rect).2 p⟩


/-! ### Characterization of the stable most-common-type computation -/

theorem getLast?_cons_of_ne_nil {α : Type*} (a : α) {l : List α} (h : l ≠ []) :
    (a :: l).getLast? = l.getLast? := by
  match l with
  | [] => exact absurd rfl h
  | b :: t => exact List.getLast?_cons_cons

theorem orderedInsert_ne_nil {α : Type*} (r : α → α → Prop) [DecidableRel r]
    (x : α) (l : List α) : List.orderedInsert r x l ≠ [] := by
  match l with
  | [] => simp [List.orderedInsert]
  | y :: ys =>
    simp only [List.orderedInsert]
    split <;> simp

theorem sorted_le_getLast {α : Type*} (cnt : α → ℕ) :
    ∀ {l : List α}, l.Sorted (cntLe cnt) → ∀ t, l.getLast? = some t →
      ∀ x ∈ l, cnt x ≤ cnt t := by
  intro l
  induction l with
  | nil => intro _ t _ x hx; cases hx
  | cons a l' ih =>
    intro hs t ht x hx
    cases l' with
    | nil =>
      simp only [List.getLast?_singleton, Option.some.injEq] at ht
      rcases List.mem_singleton.mp hx with rfl
      rw [ht]
    | cons b t' =>
      rw [List.getLast?_cons_cons] at ht
      rcases List.mem_cons.mp hx with rfl | hx
      · have htm : t ∈ b :: t' := by
          have hne : (b :: t') ≠ [] := List.cons_ne_nil _ _
          rw [List.getLast?_eq_getLast _ hne, Option.some.injEq] at ht
          rw [← ht]
          exact List.getLast_mem hne
        exact List.rel_of_sorted_cons hs t htm
      · exact ih hs.of_cons t ht x hx

theorem getLast?_orderedInsert {α : Type*} (cnt : α → ℕ) :
    ∀ (l : List α) (x : α), l.Sorted (cntLe cnt) →
      (List.orderedInsert (cntLe cnt) x l).getLast? =
        (match l.getLast? with
         | none => some x
         | some t => if cnt x ≤ cnt t then some t else some x) := by
  intro l
  induction l with
  | nil => intro x _; simp [List.orderedInsert]
  | cons y ys ih =>
    intro x hs
    simp only [List.orderedInsert]
    split
    · next hxy =>
      have hne : (y :: ys) ≠ [] := List.cons_ne_nil _ _
      have ht := List.getLast?_eq_getLast (y :: ys) hne
      rw [List.getLast?_cons_cons, ht]
      have hyle : cnt y ≤ cnt ((y :: ys).getLast hne) := by
        have hym : y ∈ y :: ys := List.mem_cons_self _ _
        exact sorted_le_getLast cnt hs _ ht y hym
      have hxle : cnt x ≤ cnt ((y :: ys).getLast hne) := le_trans hxy hyle
      simp [hxle]
    · next hxy =>
      rw [getLast?_cons_of_ne_nil y (orderedInsert_ne_nil _ x ys)]
      rw [ih x hs.of_cons]
      cases hys : ys.getLast? with
      | none =>
        have hysnil : ys = [] := List.getLast?_eq_none_iff.mp hys
        subst hysnil
        have hxy2 : ¬ cnt x ≤ cnt y := hxy
        simp [List.getLast?_singleton, hxy2]
      | some t =>
        have hysne : ys ≠ [] := by
          intro hnil
          rw [hnil] at hys
          simp at hys
        rw [getLast?_cons_of_ne_nil y hysne, hys]

theorem insertionSort_getLast_spec {α : Type*} (cnt : α → ℕ) :
    ∀ (l : List α), l ≠ [] →
      ∃ t, (List.insertionSort (cntLe cnt) l).getLast? = some t ∧ t ∈ l ∧
        (∀ s ∈ l, cnt s ≤ cnt t) ∧
        (l.filter fun s => decide (cnt s = cnt t)).getLast? = some t := by
  intro l
  induction l with
  | nil => intro h; exact absurd rfl h
  | cons x xs ih =>
    intro _
    by_cases hxs : xs = []
    · subst hxs
      refine ⟨x, ?_, List.mem_singleton.mpr rfl, ?_, ?_⟩
      · simp [List.insertionSort, List.orderedInsert]
      · intro s hs
        rcases List.mem_singleton.mp hs with rfl
        exact le_rfl
      · simp
    · obtain ⟨t', hlast', hmem', hmax', hfil'⟩ := ih hxs
      have hsorted : (List.insertionSort (cntLe cnt) xs).Sorted (cntLe cnt) :=
        List.sorted_insertionSort _ xs
      have hkey : (List.insertionSort (cntLe cnt) (x :: xs)).getLast? =
          if cnt x ≤ cnt t' then some t' else some x := by
        show (List.orderedInsert (cntLe cnt) x (List.insertionSort (cntLe cnt) xs)).getLast? = _
        rw [getLast?_orderedInsert cnt _ x hsorted, hlast']
      by_cases hle : cnt x ≤ cnt t'
      · refine ⟨t', by rw [hkey, if_pos hle], List.mem_cons_of_mem x hmem', ?_, ?_⟩
        · intro s hs
          rcases List.mem_cons.mp hs with rfl | hs
          · exact hle
          · exact hmax' s hs
        · rw [List.filter_cons]
          by_cases hx : cnt x = cnt t'
          · rw [if_pos (by simpa using hx)]
            have hne : (xs.filter fun s => decide (cnt s = cnt t')) ≠ [] := by
              intro hnil
              rw [hnil] at hfil'
              simp at hfil'
            rw [getLast?_cons_of_ne_nil x hne]
            exact hfil'
          · rw [if_neg (by simpa using hx)]
            exact hfil'
      · have hlt : cnt t' < cnt x := Nat.lt_of_not_le hle
        refine ⟨x, by rw [hkey, if_neg hle], List.mem_cons_self x xs, ?_, ?_⟩
        · intro s hs
          rcases List.mem_cons.mp hs with rfl | hs
          · exact le_rfl
          · exact le_of_lt (lt_of_le_of_lt (hmax' s hs) hlt)
        · rw [List.filter_cons, if_pos (by simp)]
          have hnil : (xs.filter fun s => decide (cnt s = cnt x)) = [] := by
            refine List.filter_eq_nil_iff.mpr ?_
            intro a ha
            have := hmax' a ha
            simp only [decide_eq_true_eq]
            omega
          rw [hnil]
          exact List.getLast?_singleton x

theorem mostCommonTypeOf_spec : ∀ (types : List RegionType), types ≠ [] →
    mostCommonTypeOf types ∈ types ∧
    (∀ s ∈ types, types.count s ≤ types.count (mostCommonTypeOf types)) ∧
    (types.filter fun s =>
      decide (types.count s = types.count (mostCommonTypeOf types))).getLast?
      = some (mostCommonTypeOf types) := by
  intro types hne
  obtain ⟨t, hlast, hmem, hmax, hfil⟩ :=
    insertionSort_getLast_spec (fun s => types.count s) types hne
  have ht : mostCommonTypeOf types = t := by
    unfold mostCommonTypeOf
    rw [hlast]
    rfl
  rw [ht]
  exact ⟨hmem, hmax, hfil⟩

/-- Concrete two-region cluster with a type tie: text first, logo second. -/
noncomputable def cexA : Region := ⟨0, 0, 10, 10, 0.9, .text⟩

/-- Second member of the tie cluster. -/
noncomputable def cexB : Region := ⟨5, 5, 10, 10, 0.8, .logo⟩

/-- For the lib variant: one logo region first, then two text regions. -/
noncomputable def cexC : Region := ⟨0, 0, 10, 10, 0.9, .logo⟩

/-- Second member (text). -/
noncomputable def cexD : Region := ⟨5, 5, 10, 10, 0.8, .text⟩

/-- Third member (text). -/
noncomputable def cexE : Region := ⟨10, 10, 10, 10, 0.7, .text⟩

/-- C4 counterexample: in mergeRegions the tie between text (first occurrence)
and logo is broken in favour of logo, the LAST occurrence, not the first; and
in mergeMultipleRegions of the lib variant the merged type is logo, the first
member, although text is the most frequent type of the cluster. -/
theorem C4_counterexample_merge_type :
    (mergeRegions [cexA, cexB]).type = RegionType.logo ∧
    RegionType.logo ≠ RegionType.text ∧
    (mergeMultipleRegions [cexC, cexD, cexE]).type = RegionType.logo ∧
    ([cexC, cexD, cexE].map Region.type).count RegionType.text = 2 ∧
    ([cexC, cexD, cexE].map Region.type).count RegionType.logo = 1 := by
  refine ⟨?_, by decide, ?_, ?_, ?_⟩
  · show mostCommonTypeOf [RegionType.text, RegionType.logo] = RegionType.logo
    with_unfolding_all decide
  · show (([cexC, cexD, cexE].headD ⟨0, 0, 0, 0, 0, .pattern⟩).type) = RegionType.logo
    rfl
  · show ([RegionType.logo, RegionType.text, RegionType.text]).count RegionType.text = 2
    decide
  · show ([RegionType.logo, RegionType.text, RegionType.text]).count RegionType.logo = 1
    decide

/-- C4 amended: when a cluster of mixed type tags is merged by
mergeRegions, the merged type is a most frequent type among the members, and
among the most frequent types it is the one occurring LAST in the cluster
(formally: it is the last element of the sublist of member types attaining the
maximal count); the lib variant mergeMultipleRegions instead simply returns
the type of the first member. -/
theorem C4_amended_merged_type : ∀ (rs : List Region) (hne : rs ≠ []),
    (mergeRegions rs).type ∈ rs.map Region.type ∧
    (∀ s ∈ rs.map Region.type,
      (rs.map Region.type).count s ≤ (rs.map Region.type).count ((mergeRegions rs).type)) ∧
    ((rs.map Region.type).filter fun s =>
      decide ((rs.map Region.type).count s =
        (rs.map Region.type).count ((mergeRegions rs).type))).getLast?
      = some ((mergeRegions rs).type) ∧
    (mergeMultipleRegions rs).type = (rs.head hne).type := by
  intro rs hne
  have hmap : rs.map Region.type ≠ [] := by
    intro h
    exact hne (List.map_eq_nil_iff.mp h)
  have htype : (mergeRegions rs).type = mostCommonTypeOf (rs.map Region.type) := rfl
  rw [htype]
  obtain ⟨h1, h2, h3⟩ := mostCommonTypeOf_spec (rs.map Region.type) hmap
  refine ⟨h1, h2, h3, ?_⟩
  cases rs with
  | nil => exact absurd rfl hne
  | cons r rest => rfl

/-- C4 witness: the amended statement applied to the concrete tie cluster. -/
theorem C4_amended_merged_type_witness :
    ([cexA, cexB] : List Region) ≠ [] ∧
    (mergeRegions [cexA, cexB]).type ∈ [cexA, cexB].map Region.type :=
  ⟨by simp, (C4_amended_merged_type [cexA, cexB] (by simp)).1⟩


/-! ### Snapshot equivalence of the smoothing blend, divergence of the median filter -/

theorem getB_natCast (d : Buf) (j : ℕ) : getB d (j : ℤ) = getN d j := by
  unfold getB
  rw [if_pos (by positivity), Int.toNat_natCast]

theorem getB_setB_ne {d : Buf} {i j : ℤ} (h : i ≠ j) (v : ℚ) :
    getB (setB d i v) j = getB d j := by
  unfold getB
  split
  · next hj => exact getN_setB_ne (by omega) v
  · rfl

/-- The in-place three-channel write loop of the blend phase equals the
snapshot version that reads every input byte from the unmodified buffer:
each iteration reads exactly the three bytes it is about to overwrite, each
before its own write. -/
theorem intFor_write3_snapshot (d : Buf) (bound : ℤ) (val : ℚ → ℤ → ℚ) :
    intFor 0 bound 4 (fun i acc =>
      let a1 := setB acc i (val (getB acc i) i)
      let a2 := setB a1 (i + 1) (val (getB a1 (i + 1)) (i + 1))
      setB a2 (i + 2) (val (getB a2 (i + 2)) (i + 2))) d =
    intFor 0 bound 4 (fun i acc =>
      let a1 := setB acc i (val (getB d i) i)
      let a2 := setB a1 (i + 1) (val (getB d (i + 1)) (i + 1))
      setB a2 (i + 2) (val (getB d (i + 2)) (i + 2))) d := by
  unfold intFor
  generalize loopCount 0 bound 4 = n
  suffices h : ∀ t : ℕ,
      ((List.range t).foldl (fun (s : Buf) (k : ℕ) =>
        (fun i acc =>
          let a1 := setB acc i (val (getB acc i) i)
          let a2 := setB a1 (i + 1) (val (getB a1 (i + 1)) (i + 1))
          setB a2 (i + 2) (val (getB a2 (i + 2)) (i + 2)))
          ((0 : ℤ) + (k : ℤ) * ((4 : ℕ) : ℤ)) s) d =
       (List.range t).foldl (fun (s : Buf) (k : ℕ) =>
        (fun i acc =>
          let a1 := setB acc i (val (getB d i) i)
          let a2 := setB a1 (i + 1) (val (getB d (i + 1)) (i + 1))
          setB a2 (i + 2) (val (getB d (i + 2)) (i + 2)))
          ((0 : ℤ) + (k : ℤ) * ((4 : ℕ) : ℤ)) s) d) ∧
      (∀ j : ℕ, 4 * t ≤ j →
        getN ((List.range t).foldl (fun (s : Buf) (k : ℕ) =>
          (fun i acc =>
            let a1 := setB acc i (val (getB acc i) i)
            let a2 := setB a1 (i + 1) (val (getB a1 (i + 1)) (i + 1))
            setB a2 (i + 2) (val (getB a2 (i + 2)) (i + 2)))
            ((0 : ℤ) + (k : ℤ) * ((4 : ℕ) : ℤ)) s) d) j = getN d j) by
    exact (h n).1
  intro t
  induction t with
  | zero => exact ⟨rfl, fun j _ => rfl⟩
  | succ t ih =>
    obtain ⟨iheq, ihfr⟩ := ih
    rw [List.range_succ, List.foldl_append, List.foldl_append]
    simp only [List.foldl_cons, List.foldl_nil]
    have hc0 : ((0 : ℤ) + (t : ℤ) * ((4 : ℕ) : ℤ)) = ((4 * t : ℕ) : ℤ) := by
      push_cast; ring
    have hc1 : ((0 : ℤ) + (t : ℤ) * ((4 : ℕ) : ℤ) + 1) = ((4 * t + 1 : ℕ) : ℤ) := by
      push_cast; ring
    have hc2 : ((0 : ℤ) + (t : ℤ) * ((4 : ℕ) : ℤ) + 2) = ((4 * t + 2 : ℕ) : ℤ) := by
      push_cast; ring
    generalize hX : (List.range t).foldl (fun (s : Buf) (k : ℕ) =>
      (fun i acc =>
        let a1 := setB acc i (val (getB acc i) i)
        let a2 := setB a1 (i + 1) (val (getB a1 (i + 1)) (i + 1))
        setB a2 (i + 2) (val (getB a2 (i + 2)) (i + 2)))
        ((0 : ℤ) + (k : ℤ) * ((4 : ℕ) : ℤ)) s) d = X at iheq ihfr ⊢
    clear hX
    have e0 : getB X ((0 : ℤ) + (t : ℤ) * ((4 : ℕ) : ℤ)) =
        getB d ((0 : ℤ) + (t : ℤ) * ((4 : ℕ) : ℤ)) := by
      rw [hc0, getB_natCast, getB_natCast]
      exact ihfr _ (by omega)
    have e1 : ∀ v : ℚ,
        getB (setB X ((0 : ℤ) + (t : ℤ) * ((4 : ℕ) : ℤ)) v)
          ((0 : ℤ) + (t : ℤ) * ((4 : ℕ) : ℤ) + 1) =
        getB d ((0 : ℤ) + (t : ℤ) * ((4 : ℕ) : ℤ) + 1) := by
      intro v
      rw [getB_setB_ne (by omega) v, hc1, getB_natCast, getB_natCast]
      exact ihfr _ (by omega)
    have e2 : ∀ v v' : ℚ,
        getB (setB (setB X ((0 : ℤ) + (t : ℤ) * ((4 : ℕ) : ℤ)) v)
            ((0 : ℤ) + (t : ℤ) * ((4 : ℕ) : ℤ) + 1) v')
          ((0 : ℤ) + (t : ℤ) * ((4 : ℕ) : ℤ) + 2) =
        getB d ((0 : ℤ) + (t : ℤ) * ((4 : ℕ) : ℤ) + 2) := by
      intro v v'
      rw [getB_setB_ne (by omega) v', getB_setB_ne (by omega) v, hc2,
        getB_natCast, getB_natCast]
      exact ihfr _ (by omega)
    constructor
    · rw [e0, e1, e2, iheq]
    · intro j hj
      rw [e0, e1, e2]
      rw [getN_setB_ne (by omega) _, getN_setB_ne (by omega) _, getN_setB_ne (by omega) _]
      exact ihfr j (by omega)

theorem smoothBlend_eq_snapshot (d output : Buf) :
    smoothBlend d output = smoothBlendSnapshot d output := by
  unfold smoothBlend smoothBlendSnapshot
  exact intFor_write3_snapshot d (d.length : ℤ)
    (fun b i => ((jsRound (b * (1 - 0.3) + getB output i * 0.3) : ℤ) : ℚ))

/-- The 4×3 buffer of the median-filter divergence: a 255 outlier at pixel
(1,1) next to a 200-valued right column, uniform across r, g, b, alpha 255. -/
def noiseCex : Buf :=
  [0, 0, 0, 255, 0, 0, 0, 255, 0, 0, 0, 255, 200, 200, 200, 255,
   0, 0, 0, 255, 255, 255, 255, 255, 200, 200, 200, 255, 200, 200, 200, 255,
   0, 0, 0, 255, 0, 0, 0, 255, 0, 0, 0, 255, 200, 200, 200, 255]

theorem reduceNoise_differs_on_noiseCex :
    reduceNoise 4 3 noiseCex ≠ reduceNoiseSnapshot 4 3 noiseCex := by
  with_unfolding_all decide

/-- C5 counterexample: on the concrete 4×3 buffer the in-place conditional
median filter differs from its snapshot-based reference: after the outlier at
pixel (1,1) is cleared to the median 0, the in-place pass reads that 0 in the
neighbourhood of pixel (2,1) and clears it too, while the snapshot reference
leaves pixel (2,1) at 200. -/
theorem C5_counterexample_median_not_snapshot :
    reduceNoise 4 3 noiseCex ≠ reduceNoiseSnapshot 4 3 noiseCex :=
  reduceNoise_differs_on_noiseCex

/-- C5 amended: the selective-smoothing pass is equivalent to the
snapshot-based reference (its convolution already reads only the unmodified
buffer, and its in-place blend reads each byte before overwriting it), but
the conditional median noise-reduction pass operates in place and is NOT
equivalent to the snapshot-based reference. -/
theorem C5_amended_smoothing_snapshot_median_not :
    (∀ (w h : ℕ) (d : Buf),
      applySelectiveSmoothing w h d = selectiveSmoothingSnapshot w h d) ∧
    reduceNoise 4 3 noiseCex ≠ reduceNoiseSnapshot 4 3 noiseCex :=
  ⟨fun w h d => smoothBlend_eq_snapshot d (smoothOutput w h d),
   reduceNoise_differs_on_noiseCex⟩


/-! ### Pipeline behaviour on zero detections and on malformed input -/

/-- A uniformly coloured 1×1 buffer (brightness 100, opaque). -/
def uniBuf : Buf := [100, 100, 100, 255]

/-- A 10×10 image declared with a malformed byte array: 16 bytes instead of
4·10·10 = 400. -/
def malBuf : Buf :=
  [0, 0, 0, 255, 10, 20, 30, 255, 200, 200, 200, 255, 50, 60, 70, 255]

/-- C1 amended: when detection yields zero regions the success path returns
success = true with an empty region list and skips inpainting, but
post-processing still runs: the output buffer is applyPostProcessing of the
input, which is in general not equal to the input. -/
theorem C1_amended_zero_regions : ∀ (w h : ℕ) (d : Buf),
    detectWatermarks d w h = [] →
    processImageOk w h d = ⟨true, [], applyPostProcessing w h d⟩ := by
  intro w h d hdet
  unfold processImageOk
  rw [hdet]
  simp

/-- C1 witness: the amended statement applied to the uniform 1×1 buffer, on
which detection finds no region. -/
theorem C1_amended_zero_regions_witness :
    detectWatermarks uniBuf 1 1 = [] ∧
    processImageOk 1 1 uniBuf = ⟨true, [], applyPostProcessing 1 1 uniBuf⟩ :=
  ⟨by with_unfolding_all rfl,
   C1_amended_zero_regions 1 1 uniBuf (by with_unfolding_all rfl)⟩

/-- C1 counterexample: on the uniform 1×1 buffer detection yields zero
regions and the result is success = true with an empty list, but the output
buffer differs from the input (the contrast stretch moves brightness 100 to
99), refuting the claim that the whole pipeline is a no-op on the image
data. -/
theorem C1_counterexample_output_differs :
    detectWatermarks uniBuf 1 1 = [] ∧
    (processImageOk 1 1 uniBuf).success = true ∧
    (processImageOk 1 1 uniBuf).watermarksDetected = [] ∧
    (processImageOk 1 1 uniBuf).output ≠ uniBuf := by
  refine ⟨by with_unfolding_all rfl, by with_unfolding_all rfl,
    by with_unfolding_all rfl, ?_⟩
  show applyPostProcessing 1 1 uniBuf ≠ uniBuf
  with_unfolding_all decide

/-- C3 amended: the engine performs no validation of the byte-array length
or of the size of the image: for a declared 10×10 geometry and ANY byte
array (including a malformed one whose length is not 4·10·10), every
detector window exceeds the image, so detection reads nothing and returns no
region, and the call resolves with success = true, an empty region list, and
the post-processed buffer; no failure result describing an input error is
produced. -/
theorem C3_amended_no_input_validation : ∀ (d : Buf),
    processImageOk 10 10 d = ⟨true, [], applyPostProcessing 10 10 d⟩ := by
  intro d
  have hdet : detectWatermarks d 10 10 = [] := by with_unfolding_all rfl
  unfold processImageOk
  rw [hdet]
  simp

/-- C3 counterexample: a 10×10 buffer with a malformed 16-byte array is not
rejected: processing returns success = true with an empty region list
instead of an input-error failure. -/
theorem C3_counterexample_malformed_accepted :
    malBuf.length ≠ 4 * 10 * 10 ∧
    (processImageOk 10 10 malBuf).success = true ∧
    (processImageOk 10 10 malBuf).watermarksDetected = [] := by
  refine ⟨by decide, by with_unfolding_all rfl, by with_unfolding_all rfl⟩


/-- First member of the concrete cluster used to witness the bounding-box
claim. -/
noncomputable def wregA : Region := ⟨2, 3, 10, 10, 0.6, .text⟩

/-- Second member of that cluster. -/
noncomputable def wregB : Region := ⟨8, 1, 10, 20, 0.4, .text⟩

/-- C7 witness: the bounding-box statement applied to a concrete two-region
cluster. -/
theorem C7_merge_bounding_box_witness :
    ([wregA, wregB] : List Region) ≠ [] ∧
    (mergeRegions [wregA, wregB]).x = listMin ([wregA, wregB].map Region.x) :=
  ⟨by simp, (C7_merge_bounding_box [wregA, wregB] (by simp)).1⟩

end Nonwatermark
